import Mathlib

/-!
# LogicalVision2, `src/cpp/superpixel/super_pixel.hpp`

A shallow embedding of `SuperPixels::getLabelContourMask` and
`SuperPixels::init_superpixels`, and theorems about them.

Conventions of the embedding.

* A `cv::Mat` and a `std::vector` are a size together with a total function on
  indices.  Every element access goes through a guarded accessor that returns a
  `Fault` when the index is outside the container, so no theorem silently relies
  on the value "stored" beyond the end.
* `int` values are integers of `Int`.  An `int` used as a `size_t` / `arma::uword`
  index is in range exactly when it is non-negative and below the size, which is
  how the guards are written.  Loop counters, pixel coordinates and flat indices
  are bounded by the pixel count of the grid, which is taken to fit an `int`.
  The 32-bit accumulators of the centroid loop, whose sums can exceed that
  count, and the conversions around the unsigned division are explicit
  (`wrap32`, `toU64`).
  The 32-bit values of `sz`, `index` and `mainindex` are `sz32`, `index32` and
  `mainindex32`; they agree with the integers used in the scans exactly when
  the pixel count fits an `int`.
* The source has no checked error path (no `throw`, no return code, no
  assertion).  A `Fault` is an operation that C++ leaves undefined (or that the
  library aborts on); it is not an error reported by the program, and the
  source determines no result for a run that reaches one (a compiled program
  may go on and return values).  The theorems on such runs say which operation
  is reached and with which operands, not what is returned.
-/

namespace SuperPixel

/-- The operations of the source that have no defined result. -/
inductive Fault where
  /-- Access `cv::Mat::at` outside `rows x cols`. -/
  | matIndex
  /-- Access `std::vector::operator[]` outside `[0, size())`. -/
  | vectorIndex
  /-- Access `arma::SpMat::operator()` outside `n_rows x n_cols`. -/
  | spMatIndex
  /-- Integer division whose divisor is zero. -/
  | divisionByZero
deriving DecidableEq, Repr

/-- The type `cv::Point2i`. -/
structure Point2i where
  x : Int
  y : Int
deriving DecidableEq, Repr

/-- The type `std::vector<T>`: `size` elements, element `i` is `elems i`. -/
structure Vec (α : Type) where
  size : Nat
  elems : Nat → α

/-- The constructor `std::vector<T>(n, a)`. -/
def Vec.replicate {α : Type} (n : Nat) (a : α) : Vec α := ⟨n, fun _ => a⟩

/-- The read `v[i]`, the index coming from an `int`. -/
def Vec.get {α : Type} (v : Vec α) (i : Int) : Except Fault α :=
  if 0 ≤ i ∧ i < v.size then .ok (v.elems i.toNat) else .error .vectorIndex

/-- The assignment `v[i] = a`, the index coming from an `int`. -/
def Vec.set {α : Type} (v : Vec α) (i : Int) (a : α) : Except Fault (Vec α) :=
  if 0 ≤ i ∧ i < v.size then .ok ⟨v.size, Function.update v.elems i.toNat a⟩
  else .error .vectorIndex

/-- A single-channel 8-bit `cv::Mat` (`CV_8UC1`), indexed `(row, column)`. -/
structure Mat8U where
  rows : Nat
  cols : Nat
  data : Nat → Nat → Nat

/-- The statements `_mask.create(rows, cols, CV_8UC1); mask.setTo(0)`. -/
def Mat8U.zeros (rows cols : Nat) : Mat8U := ⟨rows, cols, fun _ _ => 0⟩

/-- The assignment `mask.at<char>(i, j) = v`. -/
def Mat8U.set (m : Mat8U) (i j : Int) (v : Nat) : Except Fault Mat8U :=
  if (0 ≤ i ∧ i < m.rows) ∧ (0 ≤ j ∧ j < m.cols) then
    .ok ⟨m.rows, m.cols, fun r c => if r = i.toNat ∧ c = j.toNat then v else m.data r c⟩
  else .error .matIndex

/-- The type `arma::sp_umat`: an `n_rows x n_cols` matrix of unsigned entries. -/
structure SpUMat where
  n_rows : Nat
  n_cols : Nat
  data : Nat → Nat → Nat

/-- The constructor `arma::sp_umat(n_rows, n_cols)`: all entries zero. -/
def SpUMat.zeros (n_rows n_cols : Nat) : SpUMat := ⟨n_rows, n_cols, fun _ _ => 0⟩

/-- The read `m(a, b)`; `a`, `b` are `arma::uword`s converted from `int` labels. -/
def SpUMat.get (m : SpUMat) (a b : Int) : Except Fault Nat :=
  if (0 ≤ a ∧ a < m.n_rows) ∧ (0 ≤ b ∧ b < m.n_cols) then .ok (m.data a.toNat b.toNat)
  else .error .spMatIndex

/-- The assignment `m(a, b) = v`. -/
def SpUMat.set (m : SpUMat) (a b : Int) (v : Nat) : Except Fault SpUMat :=
  if (0 ≤ a ∧ a < m.n_rows) ∧ (0 ≤ b ∧ b < m.n_cols) then
    .ok ⟨m.n_rows, m.n_cols,
      fun r c => if r = a.toNat ∧ c = b.toNat then v else m.data r c⟩
  else .error .spMatIndex

/-- The data members of `class SuperPixels` that the constructor fills in before
it calls `init_superpixels`: the image size, the number of labels and the label
matrix `m_klabels` (`m_height x m_width`, indexed `(row, column)`). -/
structure SuperPixels where
  m_width : Nat
  m_height : Nat
  m_numlabels : Nat
  m_klabels : Nat → Nat → Int

/-- The read `m_klabels.at<int>(i, j)`. -/
def SuperPixels.klabels_at (g : SuperPixels) (i j : Int) : Except Fault Int :=
  if (0 ≤ i ∧ i < g.m_height) ∧ (0 ≤ j ∧ j < g.m_width) then
    .ok (g.m_klabels i.toNat j.toNat)
  else .error .matIndex

/-- The array `const int dx8[8]`. -/
def dx8 : List Int := [-1, -1, 0, 1, 1, 1, 0, -1]

/-- The array `const int dy8[8]`. -/
def dy8 : List Int := [0, -1, -1, -1, 0, 1, 1, 1]

/-! ## `getLabelContourMask` -/

/-- Line 115-117: `int line_width = 2; if (!_thick_line) line_width = 1;`. -/
def line_width (thick_line : Bool) : Nat := if thick_line then 2 else 1

/-- The variables the raster scan of `getLabelContourMask` updates. -/
structure ContourState where
  mask : Mat8U
  istaken : Vec Bool
  mainindex : Int

/-- Body of the loop over `i` (lines 139-150): the new value of `np`. -/
def contourNeighbour (g : SuperPixels) (istaken : Vec Bool) (j k : Nat) (np : Nat)
    (i : Nat) : Except Fault Nat :=
  let x : Int := (k : Int) + dx8.getD i 0
  let y : Int := (j : Int) + dy8.getD i 0
  if (x ≥ 0 ∧ x < g.m_width) ∧ (y ≥ 0 ∧ y < g.m_height) then do
    let index : Int := y * g.m_width + x
    let t ← istaken.get index
    if t = false then do
      let c ← g.klabels_at j k
      let n ← g.klabels_at y x
      if c ≠ n then pure (np + 1) else pure np
    else pure np
  else pure np

/-- Body of the loop over `k` (lines 136-157). -/
def contourPixel (g : SuperPixels) (lw : Nat) (j : Nat) (s : ContourState) (k : Nat) :
    Except Fault ContourState := do
  let np ← (List.range 8).foldlM (contourNeighbour g s.istaken j k) 0
  if np > lw then do
    let mask ← s.mask.set j k 255
    let istaken ← s.istaken.set s.mainindex true
    pure ⟨mask, istaken, s.mainindex + 1⟩
  else pure ⟨s.mask, s.istaken, s.mainindex + 1⟩

/-- Body of the loop over `j` (lines 134-158). -/
def contourRow (g : SuperPixels) (lw : Nat) (s : ContourState) (j : Nat) :
    Except Fault ContourState :=
  (List.range g.m_width).foldlM (contourPixel g lw j) s

/-- The method `SuperPixels::getLabelContourMask(_mask, _thick_line)`: the mask written. -/
def getLabelContourMask (g : SuperPixels) (thick_line : Bool) : Except Fault Mat8U := do
  let s ← (List.range g.m_height).foldlM (contourRow g (line_width thick_line))
    ⟨Mat8U.zeros g.m_height g.m_width, Vec.replicate (g.m_width * g.m_height) false, 0⟩
  pure s.mask

/-! ## `init_superpixels` -/

/-- Line 167: `sp_ranges[m_klabels.at<int>(i, j)].push_back(Point2i(j, i))`. -/
def rangesPixel (g : SuperPixels) (i : Nat) (r : Vec (List Point2i)) (j : Nat) :
    Except Fault (Vec (List Point2i)) := do
  let l ← g.klabels_at i j
  let pts ← r.get l
  r.set l (pts ++ [Point2i.mk j i])

/-- Lines 164-170: the raster scan that fills `sp_ranges`. -/
def sp_ranges_scan (g : SuperPixels) : Except Fault (Vec (List Point2i)) :=
  (List.range g.m_height).foldlM
    (fun r i => (List.range g.m_width).foldlM (rangesPixel g i) r)
    (Vec.replicate g.m_numlabels [])

/-- Value of a 32-bit two-complement `int` after an operation whose mathematical
result is `v`. -/
def wrap32 (v : Int) : Int := (v + 2 ^ 31) % 2 ^ 32 - 2 ^ 31

/-- Conversion of an `int` to the 64-bit unsigned type of `size()`. -/
def toU64 (v : Int) : Nat := (v % 2 ^ 64).toNat

/-- The assignment `x = x / n` for `int x` and `n` a `size_t`: both operands are converted to
the unsigned type, the quotient is converted back to `int`. -/
def divSize (x : Int) (n : Nat) : Except Fault Int :=
  if n = 0 then .error .divisionByZero else .ok (wrap32 ((toU64 x / n : Nat) : Int))

/-- Lines 175-182: the centre of one superpixel from its pixels. -/
def centroid (pts : List Point2i) : Except Fault Point2i := do
  let acc := pts.foldl
    (fun (a : Int × Int) p => (wrap32 (a.1 + p.x), wrap32 (a.2 + p.y))) (0, 0)
  let x ← divSize acc.1 pts.length
  let y ← divSize acc.2 pts.length
  pure ⟨x, y⟩

/-- Body of the loop over `i` in lines 174-183: the centre of superpixel `i`. -/
def centersStep (sp_ranges : Vec (List Point2i)) (centers : Vec Point2i) (i : Nat) :
    Except Fault (Vec Point2i) := do
  let pts ← sp_ranges.get i
  let c ← centroid pts
  centers.set i c

/-- Lines 173-183: the loop that fills `sp_centers`. -/
def sp_centers_loop (numlabels : Nat) (sp_ranges : Vec (List Point2i)) :
    Except Fault (Vec Point2i) :=
  (List.range numlabels).foldlM (centersStep sp_ranges) (Vec.replicate numlabels ⟨0, 0⟩)

/-- Body of the loop over `i` in the adjacency scan (lines 197-209). -/
def adjNeighbour (g : SuperPixels) (istaken : Vec Bool) (j k : Nat) (adj : SpUMat)
    (i : Nat) : Except Fault SpUMat :=
  let x : Int := (k : Int) + dx8.getD i 0
  let y : Int := (j : Int) + dy8.getD i 0
  if (x ≥ 0 ∧ x < g.m_width) ∧ (y ≥ 0 ∧ y < g.m_height) then do
    let index : Int := y * g.m_width + x
    let t ← istaken.get index
    if t = false then do
      let a ← g.klabels_at j k
      let b ← g.klabels_at y x
      if a ≠ b then do
        let e ← adj.get a b
        if e = 0 then do
          let adj1 ← adj.set a b 1
          adj1.set b a 1
        else pure adj
      else pure adj
    else pure adj
  else pure adj

/-- Lines 186-212: the scan that fills `sp_adj_mat`. -/
def sp_adj_scan (g : SuperPixels) : Except Fault SpUMat :=
  let istaken : Vec Bool := Vec.replicate (g.m_width * g.m_height) false
  (List.range g.m_height).foldlM
    (fun adj j => (List.range g.m_width).foldlM
      (fun adj k => (List.range 8).foldlM (adjNeighbour g istaken j k) adj)
      adj)
    (SpUMat.zeros g.m_numlabels g.m_numlabels)

/-- The data members that `init_superpixels` assigns. -/
structure Derived where
  sp_ranges : Vec (List Point2i)
  sp_centers : Vec Point2i
  sp_adj_mat : SpUMat

/-- The method `SuperPixels::init_superpixels()`. -/
def init_superpixels (g : SuperPixels) : Except Fault Derived := do
  let sp_ranges ← sp_ranges_scan g
  let sp_centers ← sp_centers_loop g.m_numlabels sp_ranges
  let sp_adj_mat ← sp_adj_scan g
  pure ⟨sp_ranges, sp_centers, sp_adj_mat⟩

/-! ## Concrete grids -/

/-- A label matrix given by its rows; cells outside the rows read 0 (they are
never read: every access is guarded by the matrix size). -/
def ofRows (rows : List (List Int)) : Nat → Nat → Int :=
  fun i j => (rows.getD i []).getD j 0

/-- The grid `[[0,0,1],[0,0,1],[2,2,1]]` with three labels. -/
def grid3 : SuperPixels := ⟨3, 3, 3, ofRows [[0, 0, 1], [0, 0, 1], [2, 2, 1]]⟩

/-- The one-row grid `[[0,0,1,0]]`. -/
def rowA : SuperPixels := ⟨4, 1, 2, ofRows [[0, 0, 1, 0]]⟩

/-- The one-row grid `[[1,0,1,0]]`: `rowA` with another label in column 0. -/
def rowB : SuperPixels := ⟨4, 1, 2, ofRows [[1, 0, 1, 0]]⟩

/-- Pixels `(y, x)` and `(j, k)` (row, column) are 8-neighbours: they differ by
at most one in each coordinate and are not the same pixel. -/
def neighbours8 (y x j k : Nat) : Prop :=
  (y ≤ j + 1 ∧ j ≤ y + 1) ∧ (x ≤ k + 1 ∧ k ≤ x + 1) ∧ ¬(y = j ∧ x = k)

instance (y x j k : Nat) : Decidable (neighbours8 y x j k) := by
  unfold neighbours8; infer_instance

/-- The grid of one row of `W` pixels, all with label 0, and one label. -/
def rowGrid (W : Nat) : SuperPixels := ⟨W, 1, 1, fun _ _ => 0⟩

/-- The `1 x 1` grid `[[0]]` with two labels: label 1 does not occur. -/
def gridUnused : SuperPixels := ⟨1, 1, 2, ofRows [[0]]⟩

/-- The `1 x 1` grid `[[5]]` with one label: 5 is not below the label count. -/
def gridHigh : SuperPixels := ⟨1, 1, 1, ofRows [[5]]⟩

/-- The `1 x 1` grid `[[-1]]` with one label. -/
def gridNegative : SuperPixels := ⟨1, 1, 1, ofRows [[-1]]⟩

/-- The cell `(j, k)` of the mask a run produced, if the run produced one. -/
def maskAt (r : Except Fault Mat8U) (j k : Nat) : Option Nat :=
  match r with
  | .ok m => some (m.data j k)
  | .error _ => none

/-! ## Counting differing neighbours (specification side) -/

/-- Test for offset `i`: the neighbour `(y, x) = (j + dy8[i], k + dx8[i])` lies
inside the grid, is not skipped by `skip y x`, and carries a label different
from the label of `(j, k)`. -/
def diffAt (g : SuperPixels) (skip : Nat → Nat → Bool) (j k i : Nat) : Bool :=
  let x : Int := (k : Int) + dx8.getD i 0
  let y : Int := (j : Int) + dy8.getD i 0
  decide ((x ≥ 0 ∧ x < g.m_width) ∧ (y ≥ 0 ∧ y < g.m_height))
    && !(skip y.toNat x.toNat)
    && decide (g.m_klabels j k ≠ g.m_klabels y.toNat x.toNat)

/-- Number of offsets `i < 8` that pass `diffAt`. -/
def countDiff (g : SuperPixels) (skip : Nat → Nat → Bool) (j k : Nat) : Nat :=
  (List.range 8).countP (diffAt g skip j k)

/-- The count `np` of the specification (section 4.2): the in-bounds
8-neighbours of `(j, k)` whose label differs from the label of `(j, k)`. -/
def np8 (g : SuperPixels) (j k : Nat) : Nat := countDiff g (fun _ _ => false) j k

/-- Raster order: pixel `(y, x)` is visited before pixel `(j, k)`. -/
def precedes (y x j k : Nat) : Bool := decide (y < j ∨ (y = j ∧ x < k))

/-- The pixels that are skipped when `(j, k)` is classified: those visited
before `(j, k)` and marked in the mask `m`. -/
def markedBefore (m : Nat → Nat → Nat) (j k : Nat) : Nat → Nat → Bool :=
  fun y x => precedes y x j k && decide (m y x = 255)

/-- The pixels `(row, column)` of an `H x W` grid in raster order: rows from top
to bottom, each row from left to right. -/
def raster (H W : Nat) : List (Nat × Nat) :=
  (List.range H).flatMap fun i => (List.range W).map fun j => (i, j)

/-- The points `Point2i(column, row)` of the pixels of `ps` that carry label `l`,
in the order of `ps`. -/
def labelled (g : SuperPixels) (l : Int) (ps : List (Nat × Nat)) : List Point2i :=
  (ps.filter fun p => decide (g.m_klabels p.1 p.2 = l)).map fun p => Point2i.mk p.2 p.1

/-- Every label of the grid lies in `[0, m_numlabels)`. -/
def LabelsInRange (g : SuperPixels) : Prop :=
  ∀ y < g.m_height, ∀ x < g.m_width, 0 ≤ g.m_klabels y x ∧ g.m_klabels y x < g.m_numlabels

instance (g : SuperPixels) : Decidable (LabelsInRange g) := by
  unfold LabelsInRange; infer_instance

/-- The steps of the adjacency scan in the order the three nested loops take
them: `(j, k, i)` is pixel `(row j, column k)` with offset number `i`. -/
def adjSteps (H W : Nat) : List (Nat × Nat × Nat) :=
  (List.range H).flatMap fun j => (List.range W).flatMap fun k =>
    (List.range 8).map fun i => (j, k, i)

/-- One step of the adjacency scan: the body of the loop over `i` for the pixel
and offset of `t`, with the `istaken` vector of `init_superpixels`. -/
def adjStep (g : SuperPixels) (adj : SpUMat) (t : Nat × Nat × Nat) : Except Fault SpUMat :=
  adjNeighbour g (Vec.replicate (g.m_width * g.m_height) false) t.1 t.2.1 adj t.2.2

/-- Step `(j, k, i)` meets the pair of region ids `a`, `b`: the neighbour of
`(j, k)` at offset `i` is inside the grid and the two pixels carry the labels
`a` and `b`, in either order. -/
def linked (g : SuperPixels) (j k i a b : Nat) : Prop :=
  let x : Int := (k : Int) + dx8.getD i 0
  let y : Int := (j : Int) + dy8.getD i 0
  ((x ≥ 0 ∧ x < g.m_width) ∧ (y ≥ 0 ∧ y < g.m_height)) ∧
    ((g.m_klabels j k = a ∧ g.m_klabels y.toNat x.toNat = b) ∨
      (g.m_klabels j k = b ∧ g.m_klabels y.toNat x.toNat = a))

/-- The adjacency matrix is `N x N`, its entries are 0 or 1, it is symmetric and
its diagonal is zero. -/
structure AdjInv (g : SuperPixels) (adj : SpUMat) : Prop where
  rows : adj.n_rows = g.m_numlabels
  cols : adj.n_cols = g.m_numlabels
  binary : ∀ a b, adj.data a b = 0 ∨ adj.data a b = 1
  symm : ∀ a b, adj.data a b = adj.data b a
  irrefl : ∀ a, adj.data a a = 0

/-- Sum of the `x` coordinates of a list of points. -/
def sumX (pts : List Point2i) : Int := (pts.map Point2i.x).sum

/-- Sum of the `y` coordinates of a list of points. -/
def sumY (pts : List Point2i) : Int := (pts.map Point2i.y).sum

/-- The first `n` centres a run produced, if the run produced any. -/
def centresOf (r : Except Fault Derived) (n : Nat) : Option (List Point2i) :=
  match r with
  | .ok d => some ((List.range n).map d.sp_centers.elems)
  | .error _ => none

/-- The extent of region `i` a scan produced, if the scan produced one. -/
def extentOf (r : Except Fault (Vec (List Point2i))) (i : Nat) : Option (List Point2i) :=
  match r with
  | .ok v => some (v.elems i)
  | .error _ => none

/-- The one-row grid `[[0,0,1,1]]`: `rowA` with another label in column 3. -/
def rowC : SuperPixels := ⟨4, 1, 2, ofRows [[0, 0, 1, 1]]⟩

/-- The grid `[[0,1,0],[0,1,1]]` with two labels. -/
def grid23 : SuperPixels := ⟨3, 2, 2, ofRows [[0, 1, 0], [0, 1, 1]]⟩

/-- The top-left `H x W` cells of the mask a run produced, row by row, if the run
produced one. -/
def maskRows (r : Except Fault Mat8U) (H W : Nat) : Option (List (List Nat)) :=
  match r with
  | .ok m => some ((List.range H).map fun j => (List.range W).map fun k => m.data j k)
  | .error _ => none

/-- Step `(j, k, i)` of the adjacency scan reads the ordered pair `(a, b)`: the
neighbour of `(j, k)` at offset `i` is inside the grid, the pixel carries label
`a` and the neighbour label `b`. -/
def stepPair (g : SuperPixels) (j k i a b : Nat) : Prop :=
  let x : Int := (k : Int) + dx8.getD i 0
  let y : Int := (j : Int) + dy8.getD i 0
  ((x ≥ 0 ∧ x < g.m_width) ∧ (y ≥ 0 ∧ y < g.m_height)) ∧
    g.m_klabels j k = a ∧ g.m_klabels y.toNat x.toNat = b

/-- Line 127 and line 190: `int sz = m_width*m_height`, as the 32-bit `int` it is. -/
def sz32 (g : SuperPixels) : Int := wrap32 ((g.m_width : Int) * (g.m_height : Int))

/-- Line 144 and line 200: `int index = y*m_width + x`, as the 32-bit `int` it is. -/
def index32 (g : SuperPixels) (y x : Int) : Int :=
  wrap32 (wrap32 (y * (g.m_width : Int)) + x)

/-- Lines 131 and 157: the 32-bit `int mainindex` after `n` executions of
`mainindex++`. -/
def mainindex32 : Nat → Int
  | 0 => 0
  | n + 1 => wrap32 (mainindex32 n + 1)

/-- The grid of 65537 rows of 65536 pixels, all with label 0, and one label:
`2^32 + 2^16` pixels. -/
def bigGrid : SuperPixels := ⟨65536, 65537, 1, fun _ _ => 0⟩

/-- The fault a run ended in, if it did. -/
def faultOf {α : Type} (r : Except Fault α) : Option Fault :=
  match r with
  | .ok _ => none
  | .error e => some e

/-- Invariant of the contour scan when `n` pixels have been classified. -/
structure ContourInv (g : SuperPixels) (lw n : Nat) (s : ContourState) : Prop where
  mainindex : s.mainindex = (n : Int)
  rows : s.mask.rows = g.m_height
  cols : s.mask.cols = g.m_width
  size : s.istaken.size = g.m_width * g.m_height
  taken : ∀ idx, s.istaken.elems idx = true ↔
    (idx < n ∧ s.mask.data (idx / g.m_width) (idx % g.m_width) = 255)
  marked : ∀ j k, s.mask.data j k = 255 ↔
    (k < g.m_width ∧ j * g.m_width + k < n ∧
      lw < countDiff g (markedBefore s.mask.data j k) j k)
  binary : ∀ j k, s.mask.data j k = 0 ∨ s.mask.data j k = 255

/-! ## General lemmas -/

/-- Hoare rule for a counted loop whose body may fault: an invariant that holds
initially and is re-established by every iteration holds at the end, and the
loop does not fault. -/
theorem foldlM_range_inv {σ : Type} (f : σ → Nat → Except Fault σ) (P : Nat → σ → Prop)
    (n : Nat) (s0 : σ) (h0 : P 0 s0)
    (hstep : ∀ i s, i < n → P i s → ∃ s', f s i = .ok s' ∧ P (i + 1) s') :
    ∃ s', (List.range n).foldlM f s0 = .ok s' ∧ P n s' := by
  induction n with
  | zero => exact ⟨s0, rfl, h0⟩
  | succ n ih =>
    obtain ⟨s1, h1, hP1⟩ := ih (fun i s hi hP => hstep i s (Nat.lt_succ_of_lt hi) hP)
    obtain ⟨s2, h2, hP2⟩ := hstep n s1 (Nat.lt_succ_self n) hP1
    refine ⟨s2, ?_, hP2⟩
    rw [List.range_succ, List.foldlM_append, h1]
    simp only [List.foldlM_cons, List.foldlM_nil]
    show (f s1 n >>= fun s => pure s) = Except.ok s2
    rw [h2]
    rfl

/-- A loop that adds one for every element satisfying `p` computes `countP`. -/
theorem foldlM_count (f : Nat → Nat → Except Fault Nat) (p : Nat → Bool)
    (hf : ∀ np i, f np i = .ok (np + if p i then 1 else 0)) (l : List Nat) (n0 : Nat) :
    l.foldlM f n0 = .ok (n0 + l.countP p) := by
  induction l generalizing n0 with
  | nil => rfl
  | cons a l ih =>
    rw [List.foldlM_cons, hf]
    show l.foldlM f (n0 + if p a then 1 else 0) = _
    rw [ih, List.countP_cons]
    congr 1
    omega

theorem flat_div (W j k : Nat) (hk : k < W) : (j * W + k) / W = j := by
  have hW : 0 < W := by omega
  rw [Nat.add_comm, Nat.add_mul_div_right _ _ hW, Nat.div_eq_of_lt hk, Nat.zero_add]

theorem flat_mod (W j k : Nat) (hk : k < W) : (j * W + k) % W = k := by
  rw [Nat.add_comm, Nat.add_mul_mod_self_right, Nat.mod_eq_of_lt hk]

theorem flat_inj (W j k j' k' : Nat) (hk : k < W) (hk' : k' < W)
    (h : j' * W + k' = j * W + k) : j' = j ∧ k' = k := by
  have h1 := flat_div W j k hk
  have h2 := flat_mod W j k hk
  rw [← h, flat_div W j' k' hk'] at h1
  rw [← h, flat_mod W j' k' hk'] at h2
  exact ⟨h1, h2⟩

theorem flat_lt_iff (W y x j k : Nat) (hx : x < W) (hk : k < W) :
    y * W + x < j * W + k ↔ (y < j ∨ (y = j ∧ x < k)) := by
  constructor
  · intro h
    by_contra hc
    have hjy : j ≤ y := by omega
    rcases Nat.eq_or_lt_of_le hjy with he | hlt
    · subst he; omega
    · have : (j + 1) * W ≤ y * W := Nat.mul_le_mul_right W hlt
      rw [Nat.add_mul] at this
      omega
  · rintro (h | ⟨rfl, h⟩)
    · have : (y + 1) * W ≤ j * W := Nat.mul_le_mul_right W h
      rw [Nat.add_mul] at this
      omega
    · omega

theorem flat_lt_size (W H y x : Nat) (hx : x < W) (hy : y < H) : y * W + x < W * H := by
  have : (y + 1) * W ≤ H * W := Nat.mul_le_mul_right W hy
  rw [Nat.add_mul, Nat.mul_comm H W] at this
  omega

/-! ## The contour scan -/

theorem klabels_at_nat (g : SuperPixels) (i j : Nat) (hi : i < g.m_height)
    (hj : j < g.m_width) : g.klabels_at i j = .ok (g.m_klabels i j) := by
  unfold SuperPixels.klabels_at
  rw [if_pos ⟨⟨Int.natCast_nonneg i, by exact_mod_cast hi⟩,
    ⟨Int.natCast_nonneg j, by exact_mod_cast hj⟩⟩]
  simp

theorem vec_get_nat {α : Type} (v : Vec α) (i : Nat) (hi : i < v.size) :
    v.get i = .ok (v.elems i) := by
  unfold Vec.get
  rw [if_pos ⟨Int.natCast_nonneg i, by exact_mod_cast hi⟩]
  simp

theorem vec_set_nat {α : Type} (v : Vec α) (i : Nat) (a : α) (hi : i < v.size) :
    v.set i a = .ok ⟨v.size, Function.update v.elems i a⟩ := by
  unfold Vec.set
  rw [if_pos ⟨Int.natCast_nonneg i, by exact_mod_cast hi⟩]
  simp

theorem contourNeighbour_eq (g : SuperPixels) (istaken : Vec Bool) (j k : Nat)
    (hj : j < g.m_height) (hk : k < g.m_width)
    (hsize : istaken.size = g.m_width * g.m_height) (np i : Nat) :
    contourNeighbour g istaken j k np i =
      .ok (np + if diffAt g (fun y x => istaken.elems (y * g.m_width + x)) j k i
        then 1 else 0) := by
  unfold contourNeighbour diffAt
  generalize (k : Int) + dx8.getD i 0 = x
  generalize (j : Int) + dy8.getD i 0 = y
  by_cases hb : (x ≥ 0 ∧ x < g.m_width) ∧ (y ≥ 0 ∧ y < g.m_height)
  · obtain ⟨⟨hx0, hxW⟩, hy0, hyH⟩ := hb
    obtain ⟨x', rfl⟩ := Int.eq_ofNat_of_zero_le hx0
    obtain ⟨y', rfl⟩ := Int.eq_ofNat_of_zero_le hy0
    have hxW' : x' < g.m_width := by exact_mod_cast hxW
    have hyH' : y' < g.m_height := by exact_mod_cast hyH
    have hidx : ((y' : Int) * (g.m_width : Int) + (x' : Int)) = ((y' * g.m_width + x' : Nat) : Int) := by
      push_cast; rfl
    have hlt : y' * g.m_width + x' < istaken.size := by
      rw [hsize]; exact flat_lt_size _ _ _ _ hxW' hyH'
    simp only [hidx, vec_get_nat istaken _ hlt, klabels_at_nat g j k hj hk,
      klabels_at_nat g y' x' hyH' hxW']
    have hb : (((x' : Int) ≥ 0 ∧ (x' : Int) < g.m_width) ∧
        (y' : Int) ≥ 0 ∧ (y' : Int) < g.m_height) := ⟨⟨hx0, hxW⟩, hy0, hyH⟩
    simp only [if_pos hb, Int.toNat_natCast, decide_eq_true hb, Bool.true_and]
    show (if istaken.elems _ = false then
        (if g.m_klabels j k ≠ g.m_klabels y' x' then Except.ok (np + 1) else Except.ok np)
      else Except.ok np) = _
    cases istaken.elems (y' * g.m_width + x') <;>
      by_cases hne : g.m_klabels j k = g.m_klabels y' x' <;> simp [hne]
  · simp only [if_neg hb, decide_eq_false hb, Bool.false_and]
    rfl

theorem mat_set_nat (m : Mat8U) (i j v : Nat) (hi : i < m.rows) (hj : j < m.cols) :
    m.set i j v = .ok ⟨m.rows, m.cols, fun r c => if r = i ∧ c = j then v else m.data r c⟩ := by
  unfold Mat8U.set
  rw [if_pos ⟨⟨Int.natCast_nonneg i, by exact_mod_cast hi⟩,
    ⟨Int.natCast_nonneg j, by exact_mod_cast hj⟩⟩]
  simp

/-- The test `diffAt` looks at `skip` only inside the grid. -/
theorem diffAt_congr_skip (g : SuperPixels) (skip skip' : Nat → Nat → Bool) (j k i : Nat)
    (h : ∀ y x, y < g.m_height → x < g.m_width → skip y x = skip' y x) :
    diffAt g skip j k i = diffAt g skip' j k i := by
  unfold diffAt
  generalize (k : Int) + dx8.getD i 0 = x
  generalize (j : Int) + dy8.getD i 0 = y
  by_cases hb : (x ≥ 0 ∧ x < g.m_width) ∧ (y ≥ 0 ∧ y < g.m_height)
  · obtain ⟨⟨hx0, hxW⟩, hy0, hyH⟩ := hb
    have hx : x.toNat < g.m_width := by omega
    have hy : y.toNat < g.m_height := by omega
    simp only [h _ _ hy hx]
  · simp only [decide_eq_false hb, Bool.false_and]

theorem countDiff_congr_skip (g : SuperPixels) (skip skip' : Nat → Nat → Bool) (j k : Nat)
    (h : ∀ y x, y < g.m_height → x < g.m_width → skip y x = skip' y x) :
    countDiff g skip j k = countDiff g skip' j k := by
  unfold countDiff
  congr 1
  funext i
  exact diffAt_congr_skip g skip skip' j k i h

/-- Under the invariant the `istaken` flag of an in-grid pixel says that the pixel
was visited before `(j, k)` and marked. -/
theorem taken_eq_markedBefore (g : SuperPixels) (lw j k : Nat) (s : ContourState)
    (hk : k < g.m_width) (h : ContourInv g lw (j * g.m_width + k) s)
    (y x : Nat) (hx : x < g.m_width) :
    s.istaken.elems (y * g.m_width + x) = markedBefore s.mask.data j k y x := by
  rw [Bool.eq_iff_iff, h.taken, flat_div _ _ _ hx, flat_mod _ _ _ hx,
    flat_lt_iff _ _ _ _ _ hx hk]
  simp [markedBefore, precedes]

/-- The mask values visited before `(j', k')` decide `markedBefore`. -/
theorem markedBefore_congr (W : Nat) (m m' : Nat → Nat → Nat) (j' k' : Nat)
    (hk' : k' < W)
    (h : ∀ y x, x < W → y * W + x < j' * W + k' → m y x = m' y x) (y x : Nat)
    (hx : x < W) : markedBefore m j' k' y x = markedBefore m' j' k' y x := by
  unfold markedBefore precedes
  by_cases hp : y < j' ∨ (y = j' ∧ x < k')
  · rw [h y x hx ((flat_lt_iff W y x j' k' hx hk').2 hp)]
  · simp [hp]

/-- Writing the mask at `(j, k)` does not change the count of any pixel visited
up to `(j, k)`. -/
theorem countDiff_markedBefore_set (g : SuperPixels) (m : Nat → Nat → Nat) (j k v : Nat)
    (hk : k < g.m_width) (j' k' : Nat) (hk' : k' < g.m_width)
    (hle : j' * g.m_width + k' ≤ j * g.m_width + k) :
    countDiff g (markedBefore (fun r c => if r = j ∧ c = k then v else m r c) j' k') j' k' =
      countDiff g (markedBefore m j' k') j' k' := by
  apply countDiff_congr_skip
  intro y x _ hx
  apply markedBefore_congr g.m_width _ _ j' k' hk' _ y x hx
  intro y x _ hlt
  have hne : ¬(y = j ∧ x = k) := by
    rintro ⟨rfl, rfl⟩
    omega
  simp only [if_neg hne]

theorem contourPixel_inv (g : SuperPixels) (lw j k : Nat) (s : ContourState)
    (hj : j < g.m_height) (hk : k < g.m_width)
    (h : ContourInv g lw (j * g.m_width + k) s) :
    ∃ s', contourPixel g lw j s k = .ok s' ∧
      ContourInv g lw (j * g.m_width + k + 1) s' := by
  have hnp : (List.range 8).foldlM (contourNeighbour g s.istaken j k) 0 =
      .ok (countDiff g (markedBefore s.mask.data j k) j k) := by
    rw [foldlM_count _ _ (contourNeighbour_eq g s.istaken j k hj hk h.size), Nat.zero_add]
    congr 1
    exact countDiff_congr_skip g _ _ j k
      (fun y x _ hx => taken_eq_markedBefore g lw j k s hk h y x hx)
  have hn : j * g.m_width + k < s.istaken.size := by
    rw [h.size]; exact flat_lt_size _ _ _ _ hk hj
  have hnot : s.mask.data j k ≠ 255 := by
    intro h255
    have := ((h.marked j k).1 h255).2.1
    omega
  unfold contourPixel
  rw [hnp]
  by_cases hgt : lw < countDiff g (markedBefore s.mask.data j k) j k
  · refine ⟨⟨⟨s.mask.rows, s.mask.cols,
        fun r c => if r = j ∧ c = k then 255 else s.mask.data r c⟩,
      ⟨s.istaken.size, Function.update s.istaken.elems (j * g.m_width + k) true⟩,
      s.mainindex + 1⟩, ?_, ?_⟩
    · have hm := mat_set_nat s.mask j k 255 (by rw [h.rows]; exact hj) (by rw [h.cols]; exact hk)
      have hv := vec_set_nat s.istaken (j * g.m_width + k) true hn
      rw [← h.mainindex] at hv
      show (if countDiff g (markedBefore s.mask.data j k) j k > lw then _ else _) = _
      rw [if_pos hgt, hm]
      show (s.istaken.set s.mainindex true >>= _) = _
      rw [hv]
      rfl
    · refine ⟨?_, h.rows, h.cols, h.size, ?_, ?_, ?_⟩
      · show s.mainindex + 1 = _
        rw [h.mainindex]; push_cast; rfl
      · intro idx
        show Function.update s.istaken.elems (j * g.m_width + k) true idx = true ↔
          idx < j * g.m_width + k + 1 ∧
            (if idx / g.m_width = j ∧ idx % g.m_width = k then 255
              else s.mask.data (idx / g.m_width) (idx % g.m_width)) = 255
        by_cases hidx : idx = j * g.m_width + k
        · subst hidx
          simp [flat_div _ _ _ hk, flat_mod _ _ _ hk]
        · have hne : ¬(idx / g.m_width = j ∧ idx % g.m_width = k) := by
            rintro ⟨h1, h2⟩
            apply hidx
            rw [← Nat.div_add_mod idx g.m_width, h1, h2, Nat.mul_comm]
          rw [Function.update_noteq hidx, if_neg hne, h.taken]
          constructor
          · rintro ⟨h1, h2⟩; exact ⟨by omega, h2⟩
          · rintro ⟨h1, h2⟩; exact ⟨by omega, h2⟩
      · intro j' k'
        show (if j' = j ∧ k' = k then 255 else s.mask.data j' k') = 255 ↔
          k' < g.m_width ∧ j' * g.m_width + k' < j * g.m_width + k + 1 ∧
            lw < countDiff g (markedBefore
              (fun r c => if r = j ∧ c = k then 255 else s.mask.data r c) j' k') j' k'
        by_cases heq : j' = j ∧ k' = k
        · obtain ⟨rfl, rfl⟩ := heq
          rw [countDiff_markedBefore_set g _ j' k' 255 hk j' k' hk (Nat.le_refl _)]
          simp only [and_self, if_true, true_iff]
          exact ⟨hk, by omega, hgt⟩
        · rw [if_neg heq, h.marked j' k']
          constructor
          · rintro ⟨h1, h2, h3⟩
            refine ⟨h1, by omega, ?_⟩
            rw [countDiff_markedBefore_set g _ j k 255 hk j' k' h1 (Nat.le_of_lt h2)]
            exact h3
          · rintro ⟨h1, h2, h3⟩
            have hne : j' * g.m_width + k' ≠ j * g.m_width + k :=
              fun he => heq (flat_inj _ _ _ _ _ hk h1 he)
            rw [countDiff_markedBefore_set g _ j k 255 hk j' k' h1 (by omega)] at h3
            exact ⟨h1, by omega, h3⟩
      · intro j' k'
        show (if j' = j ∧ k' = k then 255 else s.mask.data j' k') = 0 ∨
          (if j' = j ∧ k' = k then 255 else s.mask.data j' k') = 255
        by_cases heq : j' = j ∧ k' = k
        · rw [if_pos heq]; exact Or.inr rfl
        · rw [if_neg heq]; exact h.binary j' k'
  · refine ⟨⟨s.mask, s.istaken, s.mainindex + 1⟩, ?_, ?_⟩
    · show (if countDiff g (markedBefore s.mask.data j k) j k > lw then _ else _) = _
      rw [if_neg hgt]
      rfl
    · refine ⟨?_, h.rows, h.cols, h.size, ?_, ?_, h.binary⟩
      · show s.mainindex + 1 = _
        rw [h.mainindex]; push_cast; rfl
      · intro idx
        show s.istaken.elems idx = true ↔ _
        rw [h.taken]
        constructor
        · rintro ⟨h1, h2⟩; exact ⟨by omega, h2⟩
        · rintro ⟨h1, h2⟩
          refine ⟨?_, h2⟩
          by_contra hc
          have hidx : idx = j * g.m_width + k := by omega
          rw [hidx, flat_div _ _ _ hk, flat_mod _ _ _ hk] at h2
          exact hnot h2
      · intro j' k'
        show s.mask.data j' k' = 255 ↔ _
        rw [h.marked j' k']
        constructor
        · rintro ⟨h1, h2, h3⟩; exact ⟨h1, by omega, h3⟩
        · rintro ⟨h1, h2, h3⟩
          refine ⟨h1, ?_, h3⟩
          by_contra hc
          have he : j' * g.m_width + k' = j * g.m_width + k := by omega
          obtain ⟨rfl, rfl⟩ := flat_inj _ _ _ _ _ hk h1 he
          exact hgt h3

theorem contourRow_inv (g : SuperPixels) (lw j : Nat) (s : ContourState)
    (hj : j < g.m_height) (h : ContourInv g lw (j * g.m_width) s) :
    ∃ s', contourRow g lw s j = .ok s' ∧ ContourInv g lw ((j + 1) * g.m_width) s' := by
  have := foldlM_range_inv (contourPixel g lw j)
    (fun k s => ContourInv g lw (j * g.m_width + k) s) g.m_width s h
    (fun k s hk hs => contourPixel_inv g lw j k s hj hk hs)
  rw [Nat.add_mul, Nat.one_mul]
  exact this

/-- What the contour scan computes: it does not fault, the mask has the size of
the grid, its cells are 0 or 255, and a pixel is marked exactly when more than
`line_width` of its in-bounds differing neighbours were not marked before it. -/
theorem getLabelContourMask_spec (g : SuperPixels) (thick_line : Bool) :
    ∃ m, getLabelContourMask g thick_line = .ok m ∧
      m.rows = g.m_height ∧ m.cols = g.m_width ∧
      (∀ j k, m.data j k = 0 ∨ m.data j k = 255) ∧
      (∀ j k, m.data j k = 255 ↔ (j < g.m_height ∧ k < g.m_width ∧
        line_width thick_line < countDiff g (markedBefore m.data j k) j k)) := by
  have h0 : ContourInv g (line_width thick_line) (0 * g.m_width)
      ⟨Mat8U.zeros g.m_height g.m_width, Vec.replicate (g.m_width * g.m_height) false, 0⟩ := by
    refine ⟨by simp, rfl, rfl, rfl, ?_, ?_, fun _ _ => Or.inl rfl⟩
    · intro idx; simp [Vec.replicate]
    · intro j k; simp [Mat8U.zeros]
  obtain ⟨s, hs, hinv⟩ := foldlM_range_inv (contourRow g (line_width thick_line))
    (fun j s => ContourInv g (line_width thick_line) (j * g.m_width) s) g.m_height _ h0
    (fun j s hj hs => contourRow_inv g _ j s hj hs)
  refine ⟨s.mask, ?_, hinv.rows, hinv.cols, hinv.binary, ?_⟩
  · unfold getLabelContourMask
    rw [hs]
    rfl
  · intro j k
    rw [hinv.marked j k]
    constructor
    · rintro ⟨h1, h2, h3⟩
      refine ⟨?_, h1, h3⟩
      by_contra hc
      have : g.m_height * g.m_width ≤ j * g.m_width := Nat.mul_le_mul_right _ (by omega)
      omega
    · rintro ⟨h1, h2, h3⟩
      refine ⟨h2, ?_, h3⟩
      have := flat_lt_size _ _ _ _ h2 h1
      rw [Nat.mul_comm g.m_width g.m_height] at this
      exact this

/-- The eight offsets are the eight non-zero vectors with entries in -1, 0, 1. -/
theorem offset_bounds (i : Nat) (hi : i < 8) :
    (-1 ≤ dx8.getD i 0 ∧ dx8.getD i 0 ≤ 1) ∧ (-1 ≤ dy8.getD i 0 ∧ dy8.getD i 0 ≤ 1) ∧
      ¬(dx8.getD i 0 = 0 ∧ dy8.getD i 0 = 0) := by
  interval_cases i <;> decide

/-- The test `diffAt` depends on the labels and on `skip` only at the pixel and
at its in-bounds 8-neighbours. -/
theorem diffAt_congr (g g' : SuperPixels) (skip skip' : Nat → Nat → Bool) (j k i : Nat)
    (hi : i < 8) (hW : g.m_width = g'.m_width) (hH : g.m_height = g'.m_height)
    (hc : g.m_klabels j k = g'.m_klabels j k)
    (hn : ∀ y x, y < g.m_height → x < g.m_width → neighbours8 y x j k →
      g.m_klabels y x = g'.m_klabels y x ∧ skip y x = skip' y x) :
    diffAt g skip j k i = diffAt g' skip' j k i := by
  obtain ⟨hdx, hdy, hd0⟩ := offset_bounds i hi
  unfold diffAt
  generalize dx8.getD i 0 = dx at hdx hd0
  generalize dy8.getD i 0 = dy at hdy hd0
  rw [← hW, ← hH, hc]
  by_cases hb : (((k : Int) + dx ≥ 0 ∧ (k : Int) + dx < g.m_width) ∧
      ((j : Int) + dy ≥ 0 ∧ (j : Int) + dy < g.m_height))
  · obtain ⟨⟨hx0, hxW⟩, hy0, hyH⟩ := hb
    have hnb : neighbours8 ((j : Int) + dy).toNat ((k : Int) + dx).toNat j k := by
      unfold neighbours8
      omega
    obtain ⟨h1, h2⟩ := hn _ _ (by omega) (by omega) hnb
    simp only [h1, h2]
  · simp only [decide_eq_false hb, Bool.false_and]

theorem countDiff_congr (g g' : SuperPixels) (skip skip' : Nat → Nat → Bool) (j k : Nat)
    (hW : g.m_width = g'.m_width) (hH : g.m_height = g'.m_height)
    (hc : g.m_klabels j k = g'.m_klabels j k)
    (hn : ∀ y x, y < g.m_height → x < g.m_width → neighbours8 y x j k →
      g.m_klabels y x = g'.m_klabels y x ∧ skip y x = skip' y x) :
    countDiff g skip j k = countDiff g' skip' j k := by
  unfold countDiff
  apply List.countP_congr
  intro i hi
  rw [diffAt_congr g g' skip skip' j k i (List.mem_range.1 hi) hW hH hc hn]

/-! ## Claims on `getLabelContourMask` -/

/-- The inclusion fails in the other direction too: on the grid
`[[0,1,0],[0,1,1]]` the pixel in row 1, column 1 is marked in the thick-line
mask and not marked in the thin-line mask, because its three differing
neighbours in row 0 are all marked by the thin pass before it is visited. -/
theorem thick_not_within_thin_example :
    maskAt (getLabelContourMask grid23 true) 1 1 = some 255 ∧
      maskAt (getLabelContourMask grid23 false) 1 1 = some 0 := by
  decide

/-- Nested loops run their body over the concatenation of the inner ranges. -/
theorem foldlM_flatMap {α β σ : Type} (f : σ → β → Except Fault σ) (h : α → List β)
    (l : List α) (s : σ) :
    (l.flatMap h).foldlM f s = l.foldlM (fun s a => (h a).foldlM f s) s := by
  induction l generalizing s with
  | nil => rfl
  | cons a l ih =>
    rw [List.flatMap_cons, List.foldlM_append, List.foldlM_cons]
    congr 1
    funext s'
    exact ih s'

/-- The scan of `sp_ranges_scan` as one loop over the pixels in raster order. -/
theorem sp_ranges_scan_eq (g : SuperPixels) :
    sp_ranges_scan g =
      (raster g.m_height g.m_width).foldlM (fun r p => rangesPixel g p.1 r p.2)
        (Vec.replicate g.m_numlabels []) := by
  unfold sp_ranges_scan raster
  rw [foldlM_flatMap]
  congr 1
  funext r i
  rw [List.foldlM_map]

theorem labelled_append (g : SuperPixels) (l : Int) (ps qs : List (Nat × Nat)) :
    labelled g l (ps ++ qs) = labelled g l ps ++ labelled g l qs := by
  unfold labelled
  rw [List.filter_append, List.map_append]

/-- One `push_back`: with the label in range it does not fault and appends the
pixel to the extent of its label. -/
theorem rangesPixel_spec (g : SuperPixels) (i j : Nat) (r : Vec (List Point2i))
    (hi : i < g.m_height) (hj : j < g.m_width) (hsize : r.size = g.m_numlabels)
    (hl : 0 ≤ g.m_klabels i j ∧ g.m_klabels i j < g.m_numlabels) :
    ∃ r', rangesPixel g i r j = .ok r' ∧ r'.size = g.m_numlabels ∧
      ∀ l : Nat, r'.elems l = r.elems l ++ labelled g l [(i, j)] := by
  have hget : r.get (g.m_klabels i j) = .ok (r.elems (g.m_klabels i j).toNat) := by
    unfold Vec.get
    rw [if_pos ⟨hl.1, by rw [hsize]; exact hl.2⟩]
  have hset : ∀ a, r.set (g.m_klabels i j) a =
      .ok ⟨r.size, Function.update r.elems (g.m_klabels i j).toNat a⟩ := by
    intro a
    unfold Vec.set
    rw [if_pos ⟨hl.1, by rw [hsize]; exact hl.2⟩]
  refine ⟨⟨r.size, Function.update r.elems (g.m_klabels i j).toNat
    (r.elems (g.m_klabels i j).toNat ++ [Point2i.mk j i])⟩, ?_, hsize, ?_⟩
  · unfold rangesPixel
    rw [klabels_at_nat g i j hi hj]
    show (r.get (g.m_klabels i j) >>= _) = _
    rw [hget]
    exact hset _
  · intro l
    show Function.update r.elems (g.m_klabels i j).toNat _ l = _
    unfold labelled
    by_cases h : g.m_klabels i j = (l : Int)
    · have hl' : (g.m_klabels i j).toNat = l := by omega
      rw [hl', Function.update_same]
      simp [h]
    · have hl' : l ≠ (g.m_klabels i j).toNat := by omega
      rw [Function.update_noteq hl']
      simp [h]

/-- The loop of `sp_ranges_scan` over any list of pixels of a grid whose labels
are in range. -/
theorem ranges_fold (g : SuperPixels) (hlab : LabelsInRange g) (ps : List (Nat × Nat))
    (hps : ∀ p ∈ ps, p.1 < g.m_height ∧ p.2 < g.m_width) (r : Vec (List Point2i))
    (hsize : r.size = g.m_numlabels) :
    ∃ r', ps.foldlM (fun r p => rangesPixel g p.1 r p.2) r = .ok r' ∧
      r'.size = g.m_numlabels ∧ ∀ l : Nat, r'.elems l = r.elems l ++ labelled g l ps := by
  induction ps generalizing r with
  | nil => exact ⟨r, rfl, hsize, fun l => by simp [labelled]⟩
  | cons p ps ih =>
    obtain ⟨hp1, hp2⟩ := hps p (List.mem_cons_self _ _)
    obtain ⟨r1, h1, hs1, he1⟩ := rangesPixel_spec g p.1 p.2 r hp1 hp2 hsize (hlab _ hp1 _ hp2)
    obtain ⟨r2, h2, hs2, he2⟩ := ih (fun q hq => hps q (List.mem_cons_of_mem _ hq)) r1 hs1
    refine ⟨r2, ?_, hs2, ?_⟩
    · rw [List.foldlM_cons, h1]
      exact h2
    · intro l
      rw [he2 l, he1 l, List.append_assoc, ← labelled_append]
      rfl

theorem mem_raster (H W : Nat) (p : Nat × Nat) : p ∈ raster H W ↔ p.1 < H ∧ p.2 < W := by
  unfold raster
  simp only [List.mem_flatMap, List.mem_map, List.mem_range]
  constructor
  · rintro ⟨i, hi, j, hj, rfl⟩
    exact ⟨hi, hj⟩
  · rintro ⟨h1, h2⟩
    exact ⟨p.1, h1, p.2, h2, rfl⟩

/-- What the scan computes: with all labels in range it does not fault, and the
extent of label `l` lists the pixels labelled `l` in raster order. -/
theorem sp_ranges_scan_spec (g : SuperPixels) (hlab : LabelsInRange g) :
    ∃ r, sp_ranges_scan g = .ok r ∧ r.size = g.m_numlabels ∧
      ∀ l : Nat, r.elems l = labelled g l (raster g.m_height g.m_width) := by
  obtain ⟨r, h, hs, he⟩ := ranges_fold g hlab (raster g.m_height g.m_width)
    (fun p hp => (mem_raster _ _ p).1 hp) (Vec.replicate g.m_numlabels []) rfl
  refine ⟨r, ?_, hs, fun l => ?_⟩
  · rw [sp_ranges_scan_eq]; exact h
  · rw [he l]; rfl

theorem nodup_raster (H W : Nat) : (raster H W).Nodup :=
  List.Nodup.product (List.nodup_range H) (List.nodup_range W)

theorem mem_labelled (g : SuperPixels) (l : Int) (ps : List (Nat × Nat)) (q : Point2i) :
    q ∈ labelled g l ps ↔ ∃ p ∈ ps, g.m_klabels p.1 p.2 = l ∧ q = Point2i.mk p.2 p.1 := by
  unfold labelled
  simp only [List.mem_map, List.mem_filter, decide_eq_true_eq]
  constructor
  · rintro ⟨p, ⟨hp, hl⟩, rfl⟩
    exact ⟨p, hp, hl, rfl⟩
  · rintro ⟨p, hp, hl, rfl⟩
    exact ⟨p, ⟨hp, hl⟩, rfl⟩

theorem nodup_labelled (g : SuperPixels) (l : Int) (ps : List (Nat × Nat)) (h : ps.Nodup) :
    (labelled g l ps).Nodup := by
  unfold labelled
  apply List.Nodup.map _ (List.Nodup.filter _ h)
  rintro ⟨a, b⟩ ⟨c, d⟩ hpq
  simp only [Point2i.mk.injEq, Nat.cast_inj] at hpq
  rw [hpq.1, hpq.2]

/-- A run of `init_superpixels` that returns is made of a run of each of its
three parts. -/
theorem init_superpixels_ok (g : SuperPixels) (d : Derived) :
    init_superpixels g = .ok d ↔
      (sp_ranges_scan g = .ok d.sp_ranges ∧
        sp_centers_loop g.m_numlabels d.sp_ranges = .ok d.sp_centers ∧
        sp_adj_scan g = .ok d.sp_adj_mat) := by
  unfold init_superpixels
  cases h1 : sp_ranges_scan g with
  | error e => simp [bind, Except.bind]
  | ok r =>
    show (sp_centers_loop g.m_numlabels r >>= _) = _ ↔ _
    cases h2 : sp_centers_loop g.m_numlabels r with
    | error e =>
      simp only [bind, Except.bind, false_iff, not_and, Except.ok.injEq, reduceCtorEq]
      rintro rfl h
      rw [h2] at h
      exact absurd h (by simp)
    | ok c =>
      show (sp_adj_scan g >>= _) = _ ↔ _
      cases h3 : sp_adj_scan g with
      | error e => simp [bind, Except.bind]
      | ok a =>
        simp only [bind, Except.bind, pure, Except.pure, Except.ok.injEq]
        constructor
        · rintro rfl
          exact ⟨rfl, h2, rfl⟩
        · rintro ⟨rfl, h, rfl⟩
          rw [h2] at h
          cases d
          simp only [Except.ok.injEq] at h
          simp [h]

/-! ## Claims on the extents -/

/-- C5.  For every grid whose labels all lie in `[0, N)` the scan that fills
`sp_ranges` returns (and its result is the `sp_ranges` of every run of
`init_superpixels` that returns); every pixel `(x, y)` of the grid occurs
exactly once in the extent of region `label(x, y)` and in no other extent, and
every point stored in an extent is a pixel of the grid. -/
theorem extents_partition (g : SuperPixels) (hlab : LabelsInRange g) :
    ∃ r, sp_ranges_scan g = .ok r ∧
      (∀ d, init_superpixels g = .ok d → d.sp_ranges = r) ∧
      (∀ y < g.m_height, ∀ x < g.m_width, ∀ i < g.m_numlabels,
        (r.elems i).count (Point2i.mk x y) = if g.m_klabels y x = i then 1 else 0) ∧
      (∀ i < g.m_numlabels, ∀ p ∈ r.elems i,
        ∃ y < g.m_height, ∃ x < g.m_width, p = Point2i.mk x y) := by
  obtain ⟨r, hr, _, he⟩ := sp_ranges_scan_spec g hlab
  refine ⟨r, hr, ?_, ?_, ?_⟩
  · intro d hd
    have := ((init_superpixels_ok g d).1 hd).1
    rw [hr] at this
    exact (Except.ok.inj this).symm
  · intro y hy x hx i _
    rw [he i]
    have hnd := nodup_labelled g i _ (nodup_raster g.m_height g.m_width)
    by_cases h : g.m_klabels y x = (i : Int)
    · rw [if_pos h]
      apply List.count_eq_one_of_mem hnd
      rw [mem_labelled]
      exact ⟨(y, x), (mem_raster _ _ _).2 ⟨hy, hx⟩, h, rfl⟩
    · rw [if_neg h]
      apply List.count_eq_zero_of_not_mem
      rw [mem_labelled]
      rintro ⟨p, _, hl, hp⟩
      simp only [Point2i.mk.injEq, Nat.cast_inj] at hp
      rw [← hp.1, ← hp.2] at hl
      exact h hl
  · intro i _ p hp
    rw [he i, mem_labelled] at hp
    obtain ⟨q, hq, _, rfl⟩ := hp
    obtain ⟨h1, h2⟩ := (mem_raster _ _ q).1 hq
    exact ⟨q.1, h1, q.2, h2, rfl⟩

/-! ## The adjacency scan -/

/-- The scan of `sp_adj_scan` as one loop over `adjSteps`. -/
theorem sp_adj_scan_eq (g : SuperPixels) :
    sp_adj_scan g =
      (adjSteps g.m_height g.m_width).foldlM (adjStep g)
        (SpUMat.zeros g.m_numlabels g.m_numlabels) := by
  unfold sp_adj_scan adjSteps
  simp only
  rw [foldlM_flatMap]
  congr 1
  funext adj j
  rw [foldlM_flatMap]
  congr 1

theorem spmat_get_nat (m : SpUMat) (a b : Nat) (ha : a < m.n_rows) (hb : b < m.n_cols) :
    m.get a b = .ok (m.data a b) := by
  unfold SpUMat.get
  rw [if_pos ⟨⟨Int.natCast_nonneg a, by exact_mod_cast ha⟩,
    ⟨Int.natCast_nonneg b, by exact_mod_cast hb⟩⟩]
  simp

theorem spmat_set_nat (m : SpUMat) (a b v : Nat) (ha : a < m.n_rows) (hb : b < m.n_cols) :
    m.set a b v = .ok ⟨m.n_rows, m.n_cols,
      fun r c => if r = a ∧ c = b then v else m.data r c⟩ := by
  unfold SpUMat.set
  rw [if_pos ⟨⟨Int.natCast_nonneg a, by exact_mod_cast ha⟩,
    ⟨Int.natCast_nonneg b, by exact_mod_cast hb⟩⟩]
  simp

/-- One step of the adjacency scan on a grid whose labels are in range: it does
not fault, keeps the invariant, and sets exactly the pair it meets. -/
theorem adjStep_spec (g : SuperPixels) (hlab : LabelsInRange g) (adj : SpUMat)
    (j k i : Nat) (hj : j < g.m_height) (hk : k < g.m_width) (hinv : AdjInv g adj) :
    ∃ adj', adjStep g adj (j, k, i) = .ok adj' ∧ AdjInv g adj' ∧
      ∀ a b : Nat, adj'.data a b = 1 ↔
        (adj.data a b = 1 ∨ (a ≠ b ∧ linked g j k i a b)) := by
  unfold adjStep adjNeighbour linked
  simp only
  generalize (k : Int) + dx8.getD i 0 = x
  generalize (j : Int) + dy8.getD i 0 = y
  by_cases hb : (x ≥ 0 ∧ x < g.m_width) ∧ (y ≥ 0 ∧ y < g.m_height)
  · obtain ⟨⟨hx0, hxW⟩, hy0, hyH⟩ := hb
    obtain ⟨x', rfl⟩ := Int.eq_ofNat_of_zero_le hx0
    obtain ⟨y', rfl⟩ := Int.eq_ofNat_of_zero_le hy0
    have hxW' : x' < g.m_width := by exact_mod_cast hxW
    have hyH' : y' < g.m_height := by exact_mod_cast hyH
    have hb : (((x' : Int) ≥ 0 ∧ (x' : Int) < g.m_width) ∧
        (y' : Int) ≥ 0 ∧ (y' : Int) < g.m_height) := ⟨⟨hx0, hxW⟩, hy0, hyH⟩
    have hidx : ((y' : Int) * (g.m_width : Int) + (x' : Int)) =
        ((y' * g.m_width + x' : Nat) : Int) := by
      push_cast; rfl
    have hget : (Vec.replicate (g.m_width * g.m_height) false).get
        ((y' * g.m_width + x' : Nat) : Int) = .ok false :=
      vec_get_nat _ _ (flat_lt_size _ _ _ _ hxW' hyH')
    obtain ⟨ha0, haN⟩ := hlab j hj k hk
    obtain ⟨hb0, hbN⟩ := hlab y' hyH' x' hxW'
    obtain ⟨A, hA⟩ := Int.eq_ofNat_of_zero_le ha0
    obtain ⟨B, hB⟩ := Int.eq_ofNat_of_zero_le hb0
    have hAN : A < g.m_numlabels := by omega
    have hBN : B < g.m_numlabels := by omega
    simp only [if_pos hb, hidx, hget, klabels_at_nat g j k hj hk,
      klabels_at_nat g y' x' hyH' hxW', Int.toNat_natCast, hb, true_and, hA, hB]
    show ∃ adj', (if (A : Int) ≠ (B : Int) then _ else _) = _ ∧ _
    by_cases hAB : A = B
    · subst hAB
      refine ⟨adj, ?_, hinv, fun a b => ?_⟩
      · simp
        rfl
      · constructor
        · exact Or.inl
        · rintro (h | ⟨hne, h⟩)
          · exact h
          · omega
    · have hAB' : (A : Int) ≠ (B : Int) := by exact_mod_cast hAB
      rw [if_pos hAB', spmat_get_nat adj A B (by rw [hinv.rows]; exact hAN)
        (by rw [hinv.cols]; exact hBN)]
      show ∃ adj', (if adj.data A B = 0 then _ else _) = _ ∧ _
      by_cases he : adj.data A B = 0
      · rw [if_pos he, spmat_set_nat adj A B 1 (by rw [hinv.rows]; exact hAN)
          (by rw [hinv.cols]; exact hBN)]
        refine ⟨⟨adj.n_rows, adj.n_cols, fun r c => if r = B ∧ c = A then 1
          else if r = A ∧ c = B then 1 else adj.data r c⟩, ?_, ?_, ?_⟩
        · exact spmat_set_nat _ B A 1 (by show B < adj.n_rows; rw [hinv.rows]; exact hBN)
            (by show A < adj.n_cols; rw [hinv.cols]; exact hAN)
        · refine ⟨hinv.rows, hinv.cols, ?_, ?_, ?_⟩
          · intro a b
            show (if a = B ∧ b = A then 1 else if a = A ∧ b = B then 1 else adj.data a b) = 0 ∨
              (if a = B ∧ b = A then 1 else if a = A ∧ b = B then 1 else adj.data a b) = 1
            split_ifs
            · exact Or.inr rfl
            · exact Or.inr rfl
            · exact hinv.binary a b
          · intro a b
            show (if a = B ∧ b = A then 1 else if a = A ∧ b = B then 1 else adj.data a b) =
              (if b = B ∧ a = A then 1 else if b = A ∧ a = B then 1 else adj.data b a)
            have := hinv.symm a b
            split_ifs <;> first | rfl | omega
          · intro a
            show (if a = B ∧ a = A then 1 else if a = A ∧ a = B then 1 else adj.data a a) = 0
            have := hinv.irrefl a
            split_ifs <;> omega
        · intro a b
          show (if a = B ∧ b = A then 1 else if a = A ∧ b = B then 1 else adj.data a b) = 1 ↔ _
          split_ifs with h1 h2
          · simp only [true_iff]
            right
            exact ⟨by omega, Or.inr ⟨by omega, by omega⟩⟩
          · simp only [true_iff]
            right
            exact ⟨by omega, Or.inl ⟨by omega, by omega⟩⟩
          · constructor
            · exact Or.inl
            · rintro (h | ⟨_, h | h⟩)
              · exact h
              · exact absurd ⟨by omega, by omega⟩ h2
              · exact absurd ⟨by omega, by omega⟩ h1
      · rw [if_neg he]
        have h1 : adj.data A B = 1 := by
          rcases hinv.binary A B with h | h
          · exact absurd h he
          · exact h
        refine ⟨adj, rfl, hinv, fun a b => ?_⟩
        constructor
        · exact Or.inl
        · rintro (h | ⟨_, h | h⟩)
          · exact h
          · have ha : a = A := by omega
            have hb : b = B := by omega
            rw [ha, hb]; exact h1
          · have ha : a = B := by omega
            have hb : b = A := by omega
            rw [ha, hb, hinv.symm]; exact h1
  · refine ⟨adj, ?_, hinv, fun a b => ?_⟩
    · rw [if_neg hb]
      rfl
    · simp [hb]

/-- The adjacency loop over any list of steps at pixels of a grid whose labels
are in range. -/
theorem adj_fold (g : SuperPixels) (hlab : LabelsInRange g) (l : List (Nat × Nat × Nat))
    (hl : ∀ t ∈ l, t.1 < g.m_height ∧ t.2.1 < g.m_width) (adj0 : SpUMat)
    (h0 : AdjInv g adj0) :
    ∃ adj, l.foldlM (adjStep g) adj0 = .ok adj ∧ AdjInv g adj ∧
      ∀ a b : Nat, adj.data a b = 1 ↔
        (adj0.data a b = 1 ∨ (a ≠ b ∧ ∃ t ∈ l, linked g t.1 t.2.1 t.2.2 a b)) := by
  induction l generalizing adj0 with
  | nil => exact ⟨adj0, rfl, h0, fun a b => by simp⟩
  | cons t l ih =>
    obtain ⟨ht1, ht2⟩ := hl t (List.mem_cons_self _ _)
    obtain ⟨adj1, h1, hinv1, he1⟩ := adjStep_spec g hlab adj0 t.1 t.2.1 t.2.2 ht1 ht2 h0
    obtain ⟨adj2, h2, hinv2, he2⟩ :=
      ih (fun q hq => hl q (List.mem_cons_of_mem _ hq)) adj1 hinv1
    refine ⟨adj2, ?_, hinv2, fun a b => ?_⟩
    · rw [List.foldlM_cons]
      show (adjStep g adj0 (t.1, t.2.1, t.2.2) >>= _) = _
      rw [h1]
      exact h2
    · rw [he2 a b, he1 a b]
      simp only [List.mem_cons, exists_eq_or_imp]
      tauto

theorem mem_adjSteps (H W : Nat) (t : Nat × Nat × Nat) :
    t ∈ adjSteps H W ↔ t.1 < H ∧ t.2.1 < W ∧ t.2.2 < 8 := by
  unfold adjSteps
  simp only [List.mem_flatMap, List.mem_map, List.mem_range]
  constructor
  · rintro ⟨j, hj, k, hk, i, hi, rfl⟩
    exact ⟨hj, hk, hi⟩
  · rintro ⟨h1, h2, h3⟩
    exact ⟨t.1, h1, t.2.1, h2, t.2.2, h3, rfl⟩

theorem adjInv_zeros (g : SuperPixels) :
    AdjInv g (SpUMat.zeros g.m_numlabels g.m_numlabels) :=
  ⟨rfl, rfl, fun _ _ => Or.inl rfl, fun _ _ => rfl, fun _ => rfl⟩

/-- What the adjacency scan computes: with all labels in range it does not
fault, and entry `(a, b)` is 1 exactly when `a ≠ b` and some step meets the
pair. -/
theorem sp_adj_scan_spec (g : SuperPixels) (hlab : LabelsInRange g) :
    ∃ adj, sp_adj_scan g = .ok adj ∧ AdjInv g adj ∧
      ∀ a b : Nat, adj.data a b = 1 ↔
        (a ≠ b ∧ ∃ j < g.m_height, ∃ k < g.m_width, ∃ i < 8, linked g j k i a b) := by
  obtain ⟨adj, h, hinv, he⟩ := adj_fold g hlab (adjSteps g.m_height g.m_width)
    (fun t ht => ⟨((mem_adjSteps _ _ t).1 ht).1, ((mem_adjSteps _ _ t).1 ht).2.1⟩)
    _ (adjInv_zeros g)
  refine ⟨adj, ?_, hinv, fun a b => ?_⟩
  · rw [sp_adj_scan_eq]; exact h
  · rw [he a b]
    constructor
    · rintro (h | ⟨hne, t, ht, hlk⟩)
      · exact absurd h (by simp [SpUMat.zeros])
      · obtain ⟨h1, h2, h3⟩ := (mem_adjSteps _ _ t).1 ht
        exact ⟨hne, t.1, h1, t.2.1, h2, t.2.2, h3, hlk⟩
    · rintro ⟨hne, j, hj, k, hk, i, hi, hlk⟩
      exact Or.inr ⟨hne, (j, k, i), (mem_adjSteps _ _ _).2 ⟨hj, hk, hi⟩, hlk⟩

/-- Every non-zero vector with entries in -1, 0, 1 is one of the eight offsets. -/
theorem offset_exists (dx dy : Int) (hx : -1 ≤ dx ∧ dx ≤ 1) (hy : -1 ≤ dy ∧ dy ≤ 1)
    (h0 : ¬(dx = 0 ∧ dy = 0)) : ∃ i < 8, dx8.getD i 0 = dx ∧ dy8.getD i 0 = dy := by
  have hdx : dx = -1 ∨ dx = 0 ∨ dx = 1 := by omega
  have hdy : dy = -1 ∨ dy = 0 ∨ dy = 1 := by omega
  rcases hdx with rfl | rfl | rfl <;> rcases hdy with rfl | rfl | rfl
  · exact ⟨1, by decide, by decide, by decide⟩
  · exact ⟨0, by decide, by decide, by decide⟩
  · exact ⟨7, by decide, by decide, by decide⟩
  · exact ⟨2, by decide, by decide, by decide⟩
  · exact absurd ⟨rfl, rfl⟩ h0
  · exact ⟨6, by decide, by decide, by decide⟩
  · exact ⟨3, by decide, by decide, by decide⟩
  · exact ⟨4, by decide, by decide, by decide⟩
  · exact ⟨5, by decide, by decide, by decide⟩

/-- Some step of the scan meets the pair `a`, `b` exactly when two 8-neighbouring
pixels of the grid carry the labels `a` and `b`. -/
theorem linked_iff_neighbours (g : SuperPixels) (a b : Nat) :
    (∃ j < g.m_height, ∃ k < g.m_width, ∃ i < 8, linked g j k i a b) ↔
      ∃ y < g.m_height, ∃ x < g.m_width, ∃ y' < g.m_height, ∃ x' < g.m_width,
        neighbours8 y x y' x' ∧ g.m_klabels y x = a ∧ g.m_klabels y' x' = b := by
  constructor
  · rintro ⟨j, hj, k, hk, i, hi, hlk⟩
    obtain ⟨hdx, hdy, hd0⟩ := offset_bounds i hi
    unfold linked at hlk
    simp only at hlk
    generalize dx8.getD i 0 = dx at hdx hd0 hlk
    generalize dy8.getD i 0 = dy at hdy hd0 hlk
    obtain ⟨⟨⟨hx0, hxW⟩, hy0, hyH⟩, h⟩ := hlk
    have hy : ((j : Int) + dy).toNat < g.m_height := by omega
    have hx : ((k : Int) + dx).toNat < g.m_width := by omega
    rcases h with ⟨h1, h2⟩ | ⟨h1, h2⟩
    · refine ⟨j, hj, k, hk, _, hy, _, hx, ?_, h1, h2⟩
      unfold neighbours8; omega
    · refine ⟨_, hy, _, hx, j, hj, k, hk, ?_, h2, h1⟩
      unfold neighbours8; omega
  · rintro ⟨y, hy, x, hx, y', hy', x', hx', hnb, h1, h2⟩
    unfold neighbours8 at hnb
    obtain ⟨i, hi, hdx, hdy⟩ := offset_exists ((x' : Int) - x) ((y' : Int) - y)
      (by omega) (by omega) (by omega)
    refine ⟨y, hy, x, hx, i, hi, ?_⟩
    unfold linked
    simp only [hdx, hdy]
    have ex : (x : Int) + ((x' : Int) - x) = x' := by ring
    have ey : (y : Int) + ((y' : Int) - y) = y' := by ring
    rw [ex, ey]
    simp only [Int.toNat_natCast]
    exact ⟨⟨⟨by omega, by omega⟩, by omega, by omega⟩, Or.inl ⟨h1, h2⟩⟩

/-! ## Claims on the adjacency relation -/

/-- The grid `[[0,0,1],[0,0,1],[2,2,1]]` has its labels in range, so
`extents_partition` applies to it. -/
theorem extents_partition_witness :
    LabelsInRange grid3 ∧
    ∃ r, sp_ranges_scan grid3 = .ok r ∧
      (∀ d, init_superpixels grid3 = .ok d → d.sp_ranges = r) ∧
      (∀ y < grid3.m_height, ∀ x < grid3.m_width, ∀ i < grid3.m_numlabels,
        (r.elems i).count (Point2i.mk x y) = if grid3.m_klabels y x = i then 1 else 0) ∧
      (∀ i < grid3.m_numlabels, ∀ p ∈ r.elems i,
        ∃ y < grid3.m_height, ∃ x < grid3.m_width, p = Point2i.mk x y) :=
  ⟨by decide, extents_partition grid3 (by decide)⟩

/-! ## The centres -/

theorem wrap32_id (v : Int) (h1 : -2 ^ 31 ≤ v) (h2 : v < 2 ^ 31) : wrap32 v = v := by
  unfold wrap32; omega

theorem wrap32_add (a b : Int) : wrap32 (wrap32 a + b) = wrap32 (a + b) := by
  unfold wrap32; omega

theorem toU64_id (v : Int) (h1 : 0 ≤ v) (h2 : v < 2 ^ 64) : toU64 v = v.toNat := by
  unfold toU64; omega

/-- The accumulators after the loop over the pixels of a superpixel. -/
theorem centroid_acc (pts : List Point2i) (a b : Int) :
    pts.foldl (fun (acc : Int × Int) p => (wrap32 (acc.1 + p.x), wrap32 (acc.2 + p.y)))
        (wrap32 a, wrap32 b) =
      (wrap32 (a + sumX pts), wrap32 (b + sumY pts)) := by
  induction pts generalizing a b with
  | nil => simp [sumX, sumY]
  | cons p pts ih =>
    rw [List.foldl_cons]
    simp only [wrap32_add]
    rw [ih]
    simp only [sumX, sumY, List.map_cons, List.sum_cons, add_assoc]

/-- The machine computation of `centroid`: the sums wrap to 32 bits, the
division is unsigned. -/
theorem centroid_eq (pts : List Point2i) :
    centroid pts = (do
      let x ← divSize (wrap32 (sumX pts)) pts.length
      let y ← divSize (wrap32 (sumY pts)) pts.length
      pure ⟨x, y⟩) := by
  have h := centroid_acc pts 0 0
  have h0 : wrap32 0 = 0 := by decide
  rw [h0, zero_add, zero_add] at h
  unfold centroid
  simp only [h]

theorem centroid_nil : centroid [] = .error .divisionByZero := rfl

theorem divSize_fits (s : Int) (n : Nat) (hn : n ≠ 0) (h0 : 0 ≤ s) (h1 : s < 2 ^ 31) :
    divSize (wrap32 s) n = .ok (s / (n : Int)) := by
  unfold divSize
  rw [if_neg hn, wrap32_id s (by omega) h1, toU64_id s h0 (by omega)]
  obtain ⟨k, rfl⟩ := Int.eq_ofNat_of_zero_le h0
  have hq : (k : Int) / (n : Int) ≤ k := Int.ediv_le_self _ h0
  have hq0 : 0 ≤ (k : Int) / (n : Int) := by positivity
  rw [Int.toNat_natCast, Int.natCast_div, wrap32_id _ (by omega) (by omega)]

/-- With sums that fit an `int` the centre is the floor mean of each axis. -/
theorem centroid_fits (pts : List Point2i) (hne : pts ≠ [])
    (hx0 : 0 ≤ sumX pts) (hx : sumX pts < 2 ^ 31) (hy0 : 0 ≤ sumY pts)
    (hy : sumY pts < 2 ^ 31) :
    centroid pts = .ok ⟨sumX pts / (pts.length : Int), sumY pts / (pts.length : Int)⟩ := by
  have hn : pts.length ≠ 0 := fun h => hne (List.length_eq_zero.1 h)
  rw [centroid_eq, divSize_fits _ _ hn hx0 hx, divSize_fits _ _ hn hy0 hy]
  rfl

/-- Invariant of the loop that fills `sp_centers` after `n` superpixels. -/
theorem centers_upto_ok (N : Nat) (r : Vec (List Point2i)) (hr : r.size = N) (n : Nat)
    (hn : n ≤ N) (hne : ∀ i < n, r.elems i ≠ []) :
    ∃ c, (List.range n).foldlM (centersStep r) (Vec.replicate N ⟨0, 0⟩) = .ok c ∧
      c.size = N ∧ ∀ i < n, centroid (r.elems i) = .ok (c.elems i) := by
  apply foldlM_range_inv (centersStep r)
    (fun n c => c.size = N ∧ ∀ i < n, centroid (r.elems i) = .ok (c.elems i))
  · exact ⟨rfl, fun i hi => absurd hi (Nat.not_lt_zero i)⟩
  · rintro i c hi ⟨hc, hprev⟩
    have hiN : i < N := by omega
    obtain ⟨v, hv⟩ : ∃ v, centroid (r.elems i) = .ok v := by
      have hlen : (r.elems i).length ≠ 0 := fun h => hne i hi (List.length_eq_zero.1 h)
      rw [centroid_eq]
      unfold divSize
      simp only [if_neg hlen]
      exact ⟨_, rfl⟩
    refine ⟨⟨c.size, Function.update c.elems i v⟩, ?_, hc, ?_⟩
    · unfold centersStep
      rw [vec_get_nat r i (by rw [hr]; exact hiN)]
      show (centroid (r.elems i) >>= _) = _
      rw [hv]
      exact vec_set_nat c i v (by rw [hc]; exact hiN)
    · intro i' hi'
      show centroid (r.elems i') = .ok (Function.update c.elems i v i')
      by_cases h : i' = i
      · subst h
        rw [Function.update_same]; exact hv
      · rw [Function.update_noteq h]
        exact hprev i' (by omega)

/-- The loop that fills `sp_centers` reaches a division by zero as soon as one
superpixel has no pixel. -/
theorem centers_upto_fault (N : Nat) (r : Vec (List Point2i)) (hr : r.size = N) (n : Nat)
    (hn : n ≤ N) (hex : ∃ i < n, r.elems i = []) :
    (List.range n).foldlM (centersStep r) (Vec.replicate N ⟨0, 0⟩) =
      .error .divisionByZero := by
  induction n with
  | zero => obtain ⟨i, hi, _⟩ := hex; exact absurd hi (Nat.not_lt_zero i)
  | succ n ih =>
    rw [List.range_succ, List.foldlM_append]
    by_cases hprev : ∃ i < n, r.elems i = []
    · rw [ih (by omega) hprev]
      rfl
    · have hne : ∀ i < n, r.elems i ≠ [] := fun i hi h => hprev ⟨i, hi, h⟩
      have hlast : r.elems n = [] := by
        obtain ⟨i, hi, he⟩ := hex
        by_cases h : i = n
        · rw [← h]; exact he
        · exact absurd he (hne i (by omega))
      obtain ⟨c, hc, _, _⟩ := centers_upto_ok N r hr n (by omega) hne
      rw [hc]
      show (centersStep r c n >>= _) = _
      unfold centersStep
      rw [vec_get_nat r n (by rw [hr]; omega), hlast]
      rfl

/-- In a run of the loop that returns, every centre is the value `centroid`
returned for its superpixel. -/
theorem sp_centers_loop_ok (N : Nat) (r : Vec (List Point2i)) (hr : r.size = N)
    (c : Vec Point2i) (h : sp_centers_loop N r = .ok c) :
    ∀ i < N, centroid (r.elems i) = .ok (c.elems i) := by
  have hne : ∀ i < N, r.elems i ≠ [] := by
    intro i hi he
    have := centers_upto_fault N r hr N (Nat.le_refl N) ⟨i, hi, he⟩
    unfold sp_centers_loop at h
    rw [this] at h
    exact absurd h (by simp)
  obtain ⟨c', hc', _, hall⟩ := centers_upto_ok N r hr N (Nat.le_refl N) hne
  unfold sp_centers_loop at h
  rw [hc'] at h
  rw [← Except.ok.inj h]
  exact hall

theorem length_mul_le_sum (l : List Int) (m : Int) (h : ∀ a ∈ l, m ≤ a) :
    (l.length : Int) * m ≤ l.sum := by
  induction l with
  | nil => simp
  | cons a l ih =>
    have h1 := h a (List.mem_cons_self _ _)
    have h2 := ih (fun b hb => h b (List.mem_cons_of_mem _ hb))
    simp only [List.length_cons, List.sum_cons, Nat.cast_add, Nat.cast_one]
    linarith

theorem sum_le_length_mul (l : List Int) (m : Int) (h : ∀ a ∈ l, a ≤ m) :
    l.sum ≤ (l.length : Int) * m := by
  induction l with
  | nil => simp
  | cons a l ih =>
    have h1 := h a (List.mem_cons_self _ _)
    have h2 := ih (fun b hb => h b (List.mem_cons_of_mem _ hb))
    simp only [List.length_cons, List.sum_cons, Nat.cast_add, Nat.cast_one]
    linarith

/-- The floor mean of a non-empty list of integers lies between two of its
elements. -/
theorem floor_mean_between (l : List Int) (hne : l ≠ []) :
    (∃ a ∈ l, a ≤ l.sum / (l.length : Int)) ∧ (∃ b ∈ l, l.sum / (l.length : Int) ≤ b) := by
  have hn : 0 < (l.length : Int) := by
    have : 0 < l.length := List.length_pos.2 hne
    exact_mod_cast this
  have hlo : l.sum / (l.length : Int) * (l.length : Int) ≤ l.sum :=
    Int.ediv_mul_le _ (by omega)
  have hhi : l.sum < (l.sum / (l.length : Int) + 1) * (l.length : Int) :=
    Int.lt_ediv_add_one_mul_self _ hn
  constructor
  · by_contra hcon
    push_neg at hcon
    have := length_mul_le_sum l (l.sum / (l.length : Int) + 1) (fun a ha => by
      have := hcon a ha
      omega)
    rw [mul_comm] at this
    omega
  · by_contra hcon
    push_neg at hcon
    have := sum_le_length_mul l (l.sum / (l.length : Int) - 1) (fun a ha => by
      have := hcon a ha
      omega)
    rw [mul_comm, sub_mul, one_mul] at this
    omega

/-- The points of every extent have coordinates inside the grid. -/
theorem labelled_raster_bounds (g : SuperPixels) (l : Int) (p : Point2i)
    (hp : p ∈ labelled g l (raster g.m_height g.m_width)) :
    (0 ≤ p.x ∧ p.x < g.m_width) ∧ (0 ≤ p.y ∧ p.y < g.m_height) := by
  rw [mem_labelled] at hp
  obtain ⟨q, hq, _, rfl⟩ := hp
  obtain ⟨h1, h2⟩ := (mem_raster _ _ q).1 hq
  show (0 ≤ (q.2 : Int) ∧ (q.2 : Int) < g.m_width) ∧
    (0 ≤ (q.1 : Int) ∧ (q.1 : Int) < g.m_height)
  omega

/-- What `init_superpixels` stores as centre `i` when it returns. -/
theorem init_superpixels_centre (g : SuperPixels) (d : Derived)
    (hd : init_superpixels g = .ok d) (r : Vec (List Point2i))
    (hr : sp_ranges_scan g = .ok r) (hsize : r.size = g.m_numlabels) (i : Nat)
    (hi : i < g.m_numlabels) (c : Point2i) (hc : centroid (r.elems i) = .ok c) :
    d.sp_centers.elems i = c := by
  obtain ⟨h1, h2, _⟩ := (init_superpixels_ok g d).1 hd
  rw [hr] at h1
  have hrd : d.sp_ranges = r := (Except.ok.inj h1).symm
  rw [hrd] at h2
  have := sp_centers_loop_ok g.m_numlabels r hsize d.sp_centers h2 i hi
  rw [hc] at this
  exact (Except.ok.inj this).symm

/-! ## Claims on the centres -/

/-- The three centres of the grid `[[0,0,1],[0,0,1],[2,2,1]]`. -/
theorem centres_grid3 :
    centresOf (init_superpixels grid3) 3 = some [⟨0, 0⟩, ⟨2, 1⟩, ⟨0, 2⟩] := by
  decide

/-- Facts shared by the claims on the centres: the extents the scan returns,
their points being pixels of the grid. -/
theorem extents_for_centres (g : SuperPixels) (hlab : LabelsInRange g) :
    ∃ r, sp_ranges_scan g = .ok r ∧ r.size = g.m_numlabels ∧
      (∀ d, init_superpixels g = .ok d → d.sp_ranges = r) ∧
      ∀ i : Nat, ∀ p ∈ r.elems i,
        (0 ≤ p.x ∧ p.x < g.m_width) ∧ (0 ≤ p.y ∧ p.y < g.m_height) := by
  obtain ⟨r, hr, hsize, he⟩ := sp_ranges_scan_spec g hlab
  refine ⟨r, hr, hsize, ?_, ?_⟩
  · intro d hd
    have := ((init_superpixels_ok g d).1 hd).1
    rw [hr] at this
    exact (Except.ok.inj this).symm
  · intro i p hp
    rw [he i] at hp
    exact labelled_raster_bounds g i p hp

theorem sumX_nonneg (pts : List Point2i) (h : ∀ p ∈ pts, 0 ≤ p.x) : 0 ≤ sumX pts := by
  unfold sumX
  apply List.sum_nonneg
  intro a ha
  obtain ⟨p, hp, rfl⟩ := List.mem_map.1 ha
  exact h p hp

theorem sumY_nonneg (pts : List Point2i) (h : ∀ p ∈ pts, 0 ≤ p.y) : 0 ≤ sumY pts := by
  unfold sumY
  apply List.sum_nonneg
  intro a ha
  obtain ⟨p, hp, rfl⟩ := List.mem_map.1 ha
  exact h p hp

/-- Where the accumulators do not overflow the loop computes the centre it is
written to compute.  For every grid whose labels all lie in `[0, N)` and every
region id `i` below `N` whose extent is non-empty and whose coordinate sums do
not exceed `2^31 - 1`, the centre computed for `i` is
`(floor(sum of x / |extent|), floor(sum of y / |extent|))`, each axis by integer
division; it is the `sp_centers[i]` of every run of `init_superpixels` that
returns. -/
theorem centroid_floor_mean (g : SuperPixels) (hlab : LabelsInRange g) (i : Nat)
    (hi : i < g.m_numlabels) :
    ∃ r, sp_ranges_scan g = .ok r ∧
      (∀ d, init_superpixels g = .ok d → d.sp_ranges = r) ∧
      (r.elems i ≠ [] → sumX (r.elems i) ≤ 2 ^ 31 - 1 → sumY (r.elems i) ≤ 2 ^ 31 - 1 →
        centroid (r.elems i) =
            .ok ⟨sumX (r.elems i) / ((r.elems i).length : Int),
              sumY (r.elems i) / ((r.elems i).length : Int)⟩ ∧
          ∀ d, init_superpixels g = .ok d →
            d.sp_centers.elems i =
              ⟨sumX (r.elems i) / ((r.elems i).length : Int),
                sumY (r.elems i) / ((r.elems i).length : Int)⟩) := by
  obtain ⟨r, hr, hsize, hd, hb⟩ := extents_for_centres g hlab
  refine ⟨r, hr, hd, fun hne hx hy => ?_⟩
  have hc := centroid_fits (r.elems i) hne
    (sumX_nonneg _ (fun p hp => (hb i p hp).1.1)) (by omega)
    (sumY_nonneg _ (fun p hp => (hb i p hp).2.1)) (by omega)
  exact ⟨hc, fun d hd' => init_superpixels_centre g d hd' r hr hsize i hi _ hc⟩

/-- The grid `[[0,0,1],[0,0,1],[2,2,1]]` and its region 1 satisfy the hypotheses
of `centroid_floor_mean`, and the extent of region 1 its inner premises: the
centre is `(6 / 3, 3 / 3) = (2, 1)`. -/
theorem centroid_floor_mean_witness :
    (LabelsInRange grid3 ∧ 1 < grid3.m_numlabels) ∧
    ∃ r, sp_ranges_scan grid3 = .ok r ∧ r.elems 1 = [⟨2, 0⟩, ⟨2, 1⟩, ⟨2, 2⟩] ∧
      centroid (r.elems 1) = .ok ⟨2, 1⟩ ∧
      ∀ d, init_superpixels grid3 = .ok d → d.sp_centers.elems 1 = ⟨2, 1⟩ := by
  refine ⟨by decide, ?_⟩
  obtain ⟨r, hr, _, h⟩ := centroid_floor_mean grid3 (by decide) 1 (by decide)
  have he : extentOf (sp_ranges_scan grid3) 1 = some [⟨2, 0⟩, ⟨2, 1⟩, ⟨2, 2⟩] := by decide
  rw [hr] at he
  have he1 : r.elems 1 = [⟨2, 0⟩, ⟨2, 1⟩, ⟨2, 2⟩] := Option.some.inj he
  rw [he1] at h
  exact ⟨r, hr, he1, by rw [he1]; exact (h (by decide) (by decide) (by decide)).1,
    (h (by decide) (by decide) (by decide)).2⟩

/-- Where the accumulators do not overflow the centre lies in the bounding box.
For every grid whose labels all lie in `[0, N)` and every region id `i` below
`N` whose extent is non-empty and whose coordinate sums do not exceed
`2^31 - 1`, the centre `(cx, cy)` computed for `i` (the `sp_centers[i]` of every
run of `init_superpixels` that returns) has some point of the extent with
`x ≤ cx` and some with `cx ≤ x`, likewise for `y`; hence the centre is a pixel
position of the grid. -/
theorem centroid_in_bounding_box (g : SuperPixels) (hlab : LabelsInRange g) (i : Nat)
    (hi : i < g.m_numlabels) :
    ∃ r, sp_ranges_scan g = .ok r ∧
      (∀ d, init_superpixels g = .ok d → d.sp_ranges = r) ∧
      (r.elems i ≠ [] → sumX (r.elems i) ≤ 2 ^ 31 - 1 → sumY (r.elems i) ≤ 2 ^ 31 - 1 →
        ∃ c, centroid (r.elems i) = .ok c ∧
          (∀ d, init_superpixels g = .ok d → d.sp_centers.elems i = c) ∧
          ((∃ p ∈ r.elems i, p.x ≤ c.x) ∧ (∃ q ∈ r.elems i, c.x ≤ q.x)) ∧
          ((∃ p ∈ r.elems i, p.y ≤ c.y) ∧ (∃ q ∈ r.elems i, c.y ≤ q.y)) ∧
          (0 ≤ c.x ∧ c.x < g.m_width) ∧ (0 ≤ c.y ∧ c.y < g.m_height)) := by
  obtain ⟨r, hr, hsize, hd, hb⟩ := extents_for_centres g hlab
  refine ⟨r, hr, hd, fun hne hx hy => ?_⟩
  have hc := centroid_fits (r.elems i) hne
    (sumX_nonneg _ (fun p hp => (hb i p hp).1.1)) (by omega)
    (sumY_nonneg _ (fun p hp => (hb i p hp).2.1)) (by omega)
  have hmx := floor_mean_between ((r.elems i).map Point2i.x) (by simpa using hne)
  have hmy := floor_mean_between ((r.elems i).map Point2i.y) (by simpa using hne)
  simp only [List.length_map, List.mem_map, exists_exists_and_eq_and] at hmx hmy
  obtain ⟨⟨p1, hp1, hp1le⟩, ⟨q1, hq1, hq1le⟩⟩ := hmx
  obtain ⟨⟨p2, hp2, hp2le⟩, ⟨q2, hq2, hq2le⟩⟩ := hmy
  refine ⟨_, hc, fun d hd' => init_superpixels_centre g d hd' r hr hsize i hi _ hc,
    ⟨⟨p1, hp1, hp1le⟩, ⟨q1, hq1, hq1le⟩⟩, ⟨⟨p2, hp2, hp2le⟩, ⟨q2, hq2, hq2le⟩⟩, ?_, ?_⟩
  · have h1 := (hb i p1 hp1).1
    have h2 := (hb i q1 hq1).1
    change p1.x ≤ sumX (r.elems i) / _ at hp1le
    change sumX (r.elems i) / _ ≤ q1.x at hq1le
    constructor
    · exact le_trans h1.1 hp1le
    · exact lt_of_le_of_lt hq1le h2.2
  · have h1 := (hb i p2 hp2).2
    have h2 := (hb i q2 hq2).2
    change p2.y ≤ sumY (r.elems i) / _ at hp2le
    change sumY (r.elems i) / _ ≤ q2.y at hq2le
    constructor
    · exact le_trans h1.1 hp2le
    · exact lt_of_le_of_lt hq2le h2.2

/-- The grid `[[0,0,1],[0,0,1],[2,2,1]]` and its region 2 satisfy the hypotheses
of `centroid_in_bounding_box`, and the extent of region 2 its inner premises. -/
theorem centroid_in_bounding_box_witness :
    (LabelsInRange grid3 ∧ 2 < grid3.m_numlabels) ∧
    ∃ r, sp_ranges_scan grid3 = .ok r ∧ r.elems 2 = [⟨0, 2⟩, ⟨1, 2⟩] ∧
      ∃ c, centroid (r.elems 2) = .ok c ∧
        (∀ d, init_superpixels grid3 = .ok d → d.sp_centers.elems 2 = c) ∧
        ((∃ p ∈ r.elems 2, p.x ≤ c.x) ∧ (∃ q ∈ r.elems 2, c.x ≤ q.x)) ∧
        ((∃ p ∈ r.elems 2, p.y ≤ c.y) ∧ (∃ q ∈ r.elems 2, c.y ≤ q.y)) ∧
        (0 ≤ c.x ∧ c.x < grid3.m_width) ∧ (0 ≤ c.y ∧ c.y < grid3.m_height) := by
  refine ⟨by decide, ?_⟩
  obtain ⟨r, hr, _, h⟩ := centroid_in_bounding_box grid3 (by decide) 2 (by decide)
  have he : extentOf (sp_ranges_scan grid3) 2 = some [⟨0, 2⟩, ⟨1, 2⟩] := by decide
  rw [hr] at he
  have he2 : r.elems 2 = [⟨0, 2⟩, ⟨1, 2⟩] := Option.some.inj he
  exact ⟨r, hr, he2, h (by rw [he2]; decide) (by rw [he2]; decide) (by rw [he2]; decide)⟩

/-! ## Runs of `init_superpixels` as a whole -/

/-- Every region id that occurs in the grid has a non-empty extent. -/
theorem labelled_ne_nil (g : SuperPixels) (i : Nat)
    (h : ∃ y < g.m_height, ∃ x < g.m_width, g.m_klabels y x = i) :
    labelled g i (raster g.m_height g.m_width) ≠ [] := by
  obtain ⟨y, hy, x, hx, hl⟩ := h
  intro he
  have hm : Point2i.mk x y ∈ labelled g i (raster g.m_height g.m_width) := by
    rw [mem_labelled]
    exact ⟨(y, x), (mem_raster _ _ _).2 ⟨hy, hx⟩, hl, rfl⟩
  rw [he] at hm
  exact absurd hm (List.not_mem_nil _)

/-- A region id that does not occur in the grid has an empty extent. -/
theorem labelled_eq_nil (g : SuperPixels) (i : Nat)
    (h : ∀ y < g.m_height, ∀ x < g.m_width, g.m_klabels y x ≠ i) :
    labelled g i (raster g.m_height g.m_width) = [] := by
  rw [List.eq_nil_iff_forall_not_mem]
  intro p hp
  rw [mem_labelled] at hp
  obtain ⟨q, hq, hl, _⟩ := hp
  obtain ⟨h1, h2⟩ := (mem_raster _ _ q).1 hq
  exact h q.1 h1 q.2 h2 hl

/-- The method `init_superpixels` returns when all labels are in range and every region id
below `N` occurs in the grid. -/
theorem init_superpixels_returns (g : SuperPixels) (hlab : LabelsInRange g)
    (hused : ∀ i < g.m_numlabels, ∃ y < g.m_height, ∃ x < g.m_width, g.m_klabels y x = i) :
    ∃ d, init_superpixels g = .ok d := by
  obtain ⟨r, hr, hsize, he⟩ := sp_ranges_scan_spec g hlab
  obtain ⟨c, hc, _, _⟩ := centers_upto_ok g.m_numlabels r hsize g.m_numlabels
    (Nat.le_refl _) (fun i hi => by rw [he i]; exact labelled_ne_nil g i (hused i hi))
  obtain ⟨adj, hadj, _, _⟩ := sp_adj_scan_spec g hlab
  exact ⟨⟨r, c, adj⟩, (init_superpixels_ok g _).2 ⟨hr, hc, hadj⟩⟩

theorem sumX_append (a b : List Point2i) : sumX (a ++ b) = sumX a + sumX b := by
  simp [sumX]

theorem sumY_append (a b : List Point2i) : sumY (a ++ b) = sumY a + sumY b := by
  simp [sumY]

/-- The pixels of one row: their `x` coordinates sum to `n (n - 1) / 2`, their
`y` coordinates to 0. -/
theorem sums_row (n : Nat) :
    2 * sumX ((List.range n).map fun (j : Nat) => Point2i.mk (j : Int) 0) = (n : Int) * ((n : Int) - 1) ∧
      sumY ((List.range n).map fun (j : Nat) => Point2i.mk (j : Int) 0) = 0 := by
  induction n with
  | zero => simp [sumX, sumY]
  | succ n ih =>
    rw [List.range_succ, List.map_append, sumX_append, sumY_append]
    obtain ⟨ih1, ih2⟩ := ih
    constructor
    · have : sumX ([n].map fun (j : Nat) => Point2i.mk (j : Int) 0) = n := by simp [sumX]
      rw [this, mul_add, ih1]
      push_cast
      ring
    · have : sumY ([n].map fun (j : Nat) => Point2i.mk (j : Int) 0) = 0 := by simp [sumY]
      rw [this, ih2]
      rfl

theorem labelsInRange_rowGrid (W : Nat) : LabelsInRange (rowGrid W) := by
  intro y _ x _
  show (0 : Int) ≤ 0 ∧ (0 : Int) < ((1 : Nat) : Int)
  decide

/-- The run of `init_superpixels` on a one-row, one-label grid. -/
theorem rowGrid_run (W : Nat) (hW : 0 < W) :
    ∃ d, init_superpixels (rowGrid W) = .ok d ∧
      d.sp_ranges.elems 0 = ((List.range W).map fun (j : Nat) => Point2i.mk (j : Int) 0) ∧
      centroid (d.sp_ranges.elems 0) = .ok (d.sp_centers.elems 0) := by
  have hlab := labelsInRange_rowGrid W
  obtain ⟨d, hd⟩ := init_superpixels_returns (rowGrid W) hlab (by
    intro i hi
    have hi0 : i = 0 := by
      have : i < 1 := hi
      omega
    subst hi0
    exact ⟨0, Nat.zero_lt_one, 0, hW, rfl⟩)
  obtain ⟨r, hr, hsize, he⟩ := sp_ranges_scan_spec (rowGrid W) hlab
  obtain ⟨h1, h2, _⟩ := (init_superpixels_ok _ d).1 hd
  rw [hr] at h1
  have hrd : d.sp_ranges = r := (Except.ok.inj h1).symm
  refine ⟨d, hd, ?_, ?_⟩
  · rw [hrd, he 0]
    show labelled (rowGrid W) 0 (raster 1 W) = _
    have hras : raster 1 W = (List.range W).map fun j => (0, j) := by
      unfold raster
      have h1 : List.range 1 = [0] := rfl
      rw [h1, List.flatMap_cons, List.flatMap_nil, List.append_nil]
    rw [hras]
    unfold labelled
    rw [List.filter_eq_self.2 (fun p _ => by simp [rowGrid]), List.map_map]
    rfl
  · rw [hrd] at h2 ⊢
    exact sp_centers_loop_ok _ r hsize d.sp_centers h2 0 Nat.zero_lt_one

/-- The centre of the one region of the `1 x 65538` one-label grid: the sum of
the `x` coordinates, 2147581953, exceeds `2^31 - 1`. -/
theorem rowGrid_overflow :
    ∃ d, init_superpixels (rowGrid 65538) = .ok d ∧
      d.sp_ranges.elems 0 = ((List.range 65538).map fun (j : Nat) => Point2i.mk (j : Int) 0) ∧
      sumX (d.sp_ranges.elems 0) = 2147581953 ∧
      (d.sp_ranges.elems 0).length = 65538 ∧
      d.sp_centers.elems 0 = ⟨229370, 0⟩ := by
  obtain ⟨d, hd, he, hc⟩ := rowGrid_run 65538 (by decide)
  obtain ⟨hsx, hsy⟩ := sums_row 65538
  have hx : sumX (d.sp_ranges.elems 0) = 2147581953 := by
    rw [he]
    norm_num at hsx
    omega
  have hy : sumY (d.sp_ranges.elems 0) = 0 := by rw [he]; exact hsy
  have hlen : (d.sp_ranges.elems 0).length = 65538 := by
    rw [he, List.length_map, List.length_range]
  refine ⟨d, hd, he, hx, hlen, ?_⟩
  rw [centroid_eq, hx, hy, hlen] at hc
  have hval : (do
      let x ← divSize (wrap32 2147581953) 65538
      let y ← divSize (wrap32 0) 65538
      pure (Point2i.mk x y)) = Except.ok (Point2i.mk 229370 0) := by
    rfl
  rw [hval] at hc
  exact (Except.ok.inj hc).symm

/-- C6, code defect.  The centre of a superpixel is to be the floor mean of the
coordinates of its extent, `(floor(sum x / count), floor(sum y / count))` (the
loop is commented `center of superpixel`, and computes exactly this while the
sums fit).  On the `1 x 65538` grid with the single label 0, whose labels are in
range, `init_superpixels` returns, region 0 is not empty and the floor mean of
its `x` coordinates is 32768, yet the centre stored has `x = 229370`: the sum
2147581953 overflows the 32-bit accumulator `x` and the wrapped value is
divided as an unsigned number. -/
theorem centroid_overflow_floor_mean :
    LabelsInRange (rowGrid 65538) ∧
    ∃ d, init_superpixels (rowGrid 65538) = .ok d ∧ d.sp_ranges.elems 0 ≠ [] ∧
      sumX (d.sp_ranges.elems 0) / ((d.sp_ranges.elems 0).length : Int) = 32768 ∧
      (d.sp_centers.elems 0).x = 229370 := by
  obtain ⟨d, hd, _, hx, hlen, hc⟩ := rowGrid_overflow
  refine ⟨labelsInRange_rowGrid _, d, hd, ?_, ?_, ?_⟩
  · intro he
    rw [he] at hlen
    exact absurd hlen (by decide)
  · rw [hx, hlen]
    decide
  · rw [hc]

/-- C7, code defect.  The centre of a superpixel is to lie in the bounding box
of its extent.  On the `1 x 65538` grid with the single label 0, whose labels
are in range, `init_superpixels` returns, region 0 is not empty and every point
of it has `x ≤ 65537`, yet the centre stored has `x = 229370`, outside the
bounding box and outside the grid: the same overflow of the 32-bit accumulator
as in C6. -/
theorem centroid_overflow_bounding_box :
    LabelsInRange (rowGrid 65538) ∧
    ∃ d, init_superpixels (rowGrid 65538) = .ok d ∧ d.sp_ranges.elems 0 ≠ [] ∧
      (∀ p ∈ d.sp_ranges.elems 0, p.x ≤ 65537) ∧ (d.sp_centers.elems 0).x = 229370 := by
  obtain ⟨d, hd, he, _, hlen, hc⟩ := rowGrid_overflow
  refine ⟨labelsInRange_rowGrid _, d, hd, ?_, ?_, ?_⟩
  · intro he'
    rw [he'] at hlen
    exact absurd hlen (by decide)
  · intro p hp
    rw [he, List.mem_map] at hp
    obtain ⟨j, hj, rfl⟩ := hp
    have := List.mem_range.1 hj
    show (j : Int) ≤ 65537
    omega
  · rw [hc]

/-! ## Claims on the handling of bad input -/

/-- A list with an element that satisfies `P` splits at the first such
element. -/
theorem split_at_first {α : Type} (P : α → Prop) (l : List α) (h : ∃ a ∈ l, P a) :
    ∃ pre a post, l = pre ++ a :: post ∧ (∀ b ∈ pre, ¬ P b) ∧ P a := by
  induction l with
  | nil => obtain ⟨a, ha, _⟩ := h; exact absurd ha (List.not_mem_nil _)
  | cons c l ih =>
    by_cases hc : P c
    · exact ⟨[], c, l, rfl, fun b hb => absurd hb (List.not_mem_nil _), hc⟩
    · obtain ⟨a, ha, hPa⟩ := h
      rcases List.mem_cons.1 ha with rfl | ha'
      · exact absurd hPa hc
      · obtain ⟨pre, a', post, hl, hpre, ha'P⟩ := ih ⟨a, ha', hPa⟩
        refine ⟨c :: pre, a', post, by rw [hl]; rfl, ?_, ha'P⟩
        intro b hb
        rcases List.mem_cons.1 hb with rfl | hb'
        · exact hc
        · exact hpre b hb'

/-- The first region id without a pixel: the scan that fills `sp_ranges` and the
iterations of the centre loop before it return. -/
theorem first_empty_region (g : SuperPixels) (hlab : LabelsInRange g)
    (hex : ∃ i < g.m_numlabels, ∀ y < g.m_height, ∀ x < g.m_width, g.m_klabels y x ≠ i) :
    ∃ r, sp_ranges_scan g = .ok r ∧ r.size = g.m_numlabels ∧
      ∃ i < g.m_numlabels,
        (∀ y < g.m_height, ∀ x < g.m_width, g.m_klabels y x ≠ i) ∧ r.elems i = [] ∧
        ∃ c, (List.range i).foldlM (centersStep r)
            (Vec.replicate g.m_numlabels ⟨0, 0⟩) = .ok c ∧ c.size = g.m_numlabels := by
  obtain ⟨r, hr, hsize, he⟩ := sp_ranges_scan_spec g hlab
  have hex' : ∃ i, i < g.m_numlabels ∧ r.elems i = [] := by
    obtain ⟨i, hi, hno⟩ := hex
    exact ⟨i, hi, by rw [he i]; exact labelled_eq_nil g i hno⟩
  obtain ⟨hiN, hempty⟩ := Nat.find_spec hex'
  have hmin : ∀ m < Nat.find hex', r.elems m ≠ [] := by
    intro m hm hme
    exact Nat.find_min hex' hm ⟨by omega, hme⟩
  obtain ⟨c, hc, hcs, _⟩ := centers_upto_ok g.m_numlabels r hsize (Nat.find hex')
    (Nat.le_of_lt hiN) hmin
  refine ⟨r, hr, hsize, Nat.find hex', hiN, ?_, hempty, c, hc, hcs⟩
  intro y hy x hx hl
  rw [he (Nat.find hex')] at hempty
  exact labelled_ne_nil g _ ⟨y, hy, x, hx, hl⟩ hempty

/-- The iteration of the centre loop for a superpixel without pixels. -/
theorem centersStep_empty (r : Vec (List Point2i)) (c : Vec Point2i) (i : Nat)
    (hi : i < r.size) (he : r.elems i = []) :
    r.get i = .ok [] ∧ centersStep r c i = (centroid [] >>= fun v => c.set i v) := by
  have hget : r.get i = .ok [] := by rw [vec_get_nat r i hi, he]
  refine ⟨hget, ?_⟩
  unfold centersStep
  rw [hget]
  rfl

/-- The first pixel in raster order whose label is outside `[0, N)`: the scan
over the pixels before it returns. -/
theorem first_bad_label (g : SuperPixels) (hbad : ¬ LabelsInRange g) :
    ∃ pre y x post r, raster g.m_height g.m_width = pre ++ (y, x) :: post ∧
      (y < g.m_height ∧ x < g.m_width) ∧
      ¬(0 ≤ g.m_klabels y x ∧ g.m_klabels y x < g.m_numlabels) ∧
      pre.foldlM (fun r p => rangesPixel g p.1 r p.2) (Vec.replicate g.m_numlabels []) =
        .ok r ∧
      r.size = g.m_numlabels := by
  have hex : ∃ p ∈ raster g.m_height g.m_width,
      ¬(0 ≤ g.m_klabels p.1 p.2 ∧ g.m_klabels p.1 p.2 < g.m_numlabels) := by
    unfold LabelsInRange at hbad
    push_neg at hbad
    obtain ⟨y, hy, x, hx, hl⟩ := hbad
    refine ⟨(y, x), (mem_raster _ _ _).2 ⟨hy, hx⟩, ?_⟩
    rintro ⟨h1, h2⟩
    exact absurd h2 (not_lt.2 (hl h1))
  obtain ⟨pre, p, post, hsplit, hpre, hp⟩ := split_at_first _ _ hex
  have hmem : ∀ q ∈ pre, q ∈ raster g.m_height g.m_width := by
    intro q hq
    rw [hsplit]
    exact List.mem_append_left _ hq
  have hpmem : p ∈ raster g.m_height g.m_width := by
    rw [hsplit]
    exact List.mem_append_right _ (List.mem_cons_self _ _)
  -- the pixels before the first bad one form a grid whose labels are in range
  have hfold : ∀ (ps : List (Nat × Nat)) (r0 : Vec (List Point2i)),
      (∀ q ∈ ps, (q.1 < g.m_height ∧ q.2 < g.m_width) ∧
        (0 ≤ g.m_klabels q.1 q.2 ∧ g.m_klabels q.1 q.2 < g.m_numlabels)) →
      r0.size = g.m_numlabels →
      ∃ r, ps.foldlM (fun r p => rangesPixel g p.1 r p.2) r0 = .ok r ∧
        r.size = g.m_numlabels := by
    intro ps
    induction ps with
    | nil => exact fun r0 _ h0 => ⟨r0, rfl, h0⟩
    | cons q ps ih =>
      intro r0 hq h0
      obtain ⟨⟨hq1, hq2⟩, hql⟩ := hq q (List.mem_cons_self _ _)
      obtain ⟨r1, h1, hs1, _⟩ := rangesPixel_spec g q.1 q.2 r0 hq1 hq2 h0 hql
      obtain ⟨r2, h2, hs2⟩ := ih r1 (fun b hb => hq b (List.mem_cons_of_mem _ hb)) hs1
      refine ⟨r2, ?_, hs2⟩
      rw [List.foldlM_cons, h1]
      exact h2
  obtain ⟨r, hr, hsize⟩ := hfold pre (Vec.replicate g.m_numlabels [])
    (fun q hq => ⟨(mem_raster _ _ q).1 (hmem q hq), not_not.1 (hpre q hq)⟩) rfl
  exact ⟨pre, p.1, p.2, post, r, hsplit, (mem_raster _ _ p).1 hpmem, hp, hr, hsize⟩

/-- The `push_back` at a pixel whose label is outside `[0, N)`: the label itself
is the index, and it is outside the vector. -/
theorem rangesPixel_bad (g : SuperPixels) (y x : Nat) (r : Vec (List Point2i))
    (hy : y < g.m_height) (hx : x < g.m_width) (hsize : r.size = g.m_numlabels)
    (hl : ¬(0 ≤ g.m_klabels y x ∧ g.m_klabels y x < g.m_numlabels)) :
    rangesPixel g y r x =
        (r.get (g.m_klabels y x) >>= fun pts =>
          r.set (g.m_klabels y x) (pts ++ [Point2i.mk x y])) ∧
      r.get (g.m_klabels y x) = .error .vectorIndex := by
  constructor
  · unfold rangesPixel
    rw [klabels_at_nat g y x hy hx]
    rfl
  · unfold Vec.get
    rw [if_neg (by rw [hsize]; exact hl)]

/-- C11, as stated, fails.  On the grid `[[0,0,1],[0,0,1],[2,2,1]]` with
`thick_line = false` the pixel in row 2, column 2 has in-bounds 8-neighbours
with another label (two of them, more than `line_width = 1`), yet it is not
marked: the run marks four pixels, not eight. -/
theorem contour_scenario_counterexample :
    0 < np8 grid3 2 2 ∧ line_width false < np8 grid3 2 2 ∧
      maskAt (getLabelContourMask grid3 false) 2 2 = some 0 := by
  decide

/-- C11, amended.  On the grid `[[0,0,1],[0,0,1],[2,2,1]]` with
`thick_line = false`, `getLabelContourMask` returns the mask with rows
`[0,255,0]`, `[255,255,0]`, `[0,255,0]`: exactly the pixels `(x, y)` = `(1,0)`,
`(0,1)`, `(1,1)` and `(1,2)` are marked; `(0,0)` is not marked, and neither are
`(2,0)`, `(2,1)`, `(0,2)`, `(2,2)`, whose differing neighbours were marked
before them. -/
theorem contour_scenario :
    maskRows (getLabelContourMask grid3 false) grid3.m_height grid3.m_width =
      some [[0, 255, 0], [255, 255, 0], [0, 255, 0]] := by
  decide

/-- Skipping neighbours can only lower the count of differing neighbours. -/
theorem countDiff_le_np8 (g : SuperPixels) (skip : Nat → Nat → Bool) (j k : Nat) :
    countDiff g skip j k ≤ np8 g j k := by
  unfold np8 countDiff
  apply List.countP_mono_left
  intro i _
  unfold diffAt
  simp only [Bool.and_eq_true, decide_eq_true_eq, Bool.not_eq_true', ne_eq, Bool.not_false,
    and_true]
  rintro ⟨⟨hb, _⟩, hdiff⟩
  exact ⟨hb, hdiff⟩

/-- A pixel whose in-bounds 8-neighbours all carry its label has no differing
neighbour. -/
theorem np8_eq_zero (g : SuperPixels) (j k : Nat)
    (h : ∀ y < g.m_height, ∀ x < g.m_width, neighbours8 y x j k →
      g.m_klabels y x = g.m_klabels j k) : np8 g j k = 0 := by
  unfold np8 countDiff
  rw [List.countP_eq_zero]
  intro i hi
  obtain ⟨hdx, hdy, hd0⟩ := offset_bounds i (List.mem_range.1 hi)
  unfold diffAt
  generalize dx8.getD i 0 = dx at hdx hd0
  generalize dy8.getD i 0 = dy at hdy hd0
  simp only [Bool.and_eq_true, decide_eq_true_eq, Bool.not_eq_true', ne_eq, Bool.not_false,
    and_true, not_and, not_not]
  rintro ⟨⟨hx0, hxW⟩, hy0, hyH⟩
  have hnb : neighbours8 ((j : Int) + dy).toNat ((k : Int) + dx).toNat j k := by
    unfold neighbours8
    omega
  exact (h _ (by omega) _ (by omega) hnb).symm

/-- The pixels of `raster` are strictly increasing in raster order. -/
theorem pairwise_raster (H W : Nat) :
    (raster H W).Pairwise (fun p q => p.1 < q.1 ∨ (p.1 = q.1 ∧ p.2 < q.2)) := by
  unfold raster
  rw [List.pairwise_flatMap]
  constructor
  · intro i _
    rw [List.pairwise_map]
    exact (List.pairwise_lt_range W).imp (fun h => Or.inr ⟨rfl, h⟩)
  · apply (List.pairwise_lt_range H).imp
    intro a b hab p hp q hq
    obtain ⟨_, _, rfl⟩ := List.mem_map.1 hp
    obtain ⟨_, _, rfl⟩ := List.mem_map.1 hq
    exact Or.inl hab

/-- The points of `labelled` are strictly increasing in raster order when the
pixels are. -/
theorem pairwise_labelled (g : SuperPixels) (l : Int) (ps : List (Nat × Nat))
    (h : ps.Pairwise (fun p q => p.1 < q.1 ∨ (p.1 = q.1 ∧ p.2 < q.2))) :
    (labelled g l ps).Pairwise (fun p q => p.y < q.y ∨ (p.y = q.y ∧ p.x < q.x)) := by
  unfold labelled
  rw [List.pairwise_map]
  apply (List.Pairwise.filter _ h).imp
  intro a b hab
  show (a.1 : Int) < b.1 ∨ ((a.1 : Int) = b.1 ∧ (a.2 : Int) < b.2)
  omega

/-- C12.  For every grid whose labels all lie in `[0, N)` the scan that fills
`sp_ranges` returns (its result is the `sp_ranges` of every run of
`init_superpixels` that returns), and for every region id `i` below `N` the
extent `sp_ranges[i]` is exactly the list of the pixels with label `i` taken in
row-major raster order and stored as `Point(x = column, y = row)`: it is the
filtered raster list, it contains exactly the points of the pixels labelled
`i`, it is strictly increasing in `(y, x)` order, and it has no duplicates. -/
theorem extents_raster_order (g : SuperPixels) (hlab : LabelsInRange g) :
    ∃ r, sp_ranges_scan g = .ok r ∧
      (∀ d, init_superpixels g = .ok d → d.sp_ranges = r) ∧
      ∀ i < g.m_numlabels,
        r.elems i =
            ((raster g.m_height g.m_width).filter
              fun p => decide (g.m_klabels p.1 p.2 = i)).map (fun p => Point2i.mk p.2 p.1) ∧
          (∀ p, p ∈ r.elems i ↔
            ∃ y < g.m_height, ∃ x < g.m_width, g.m_klabels y x = i ∧ p = Point2i.mk x y) ∧
          (r.elems i).Pairwise (fun p q => p.y < q.y ∨ (p.y = q.y ∧ p.x < q.x)) ∧
          (r.elems i).Nodup := by
  obtain ⟨r, hr, _, he⟩ := sp_ranges_scan_spec g hlab
  refine ⟨r, hr, ?_, fun i _ => ⟨?_, ?_, ?_, ?_⟩⟩
  · intro d hd
    have := ((init_superpixels_ok g d).1 hd).1
    rw [hr] at this
    exact (Except.ok.inj this).symm
  · rw [he i]; rfl
  · intro p
    rw [he i, mem_labelled]
    constructor
    · rintro ⟨q, hq, hl, rfl⟩
      obtain ⟨h1, h2⟩ := (mem_raster _ _ q).1 hq
      exact ⟨q.1, h1, q.2, h2, hl, rfl⟩
    · rintro ⟨y, hy, x, hx, hl, rfl⟩
      exact ⟨(y, x), (mem_raster _ _ _).2 ⟨hy, hx⟩, hl, rfl⟩
  · rw [he i]
    exact pairwise_labelled g i _ (pairwise_raster _ _)
  · rw [he i]
    exact nodup_labelled g i _ (nodup_raster _ _)

/-- The grid `[[0,0,1],[0,0,1],[2,2,1]]` satisfies the hypothesis of
`extents_raster_order`; its region 0 is `[(0,0), (1,0), (0,1), (1,1)]`. -/
theorem extents_raster_order_witness :
    LabelsInRange grid3 ∧
    ∃ r, sp_ranges_scan grid3 = .ok r ∧
      r.elems 0 = [⟨0, 0⟩, ⟨1, 0⟩, ⟨0, 1⟩, ⟨1, 1⟩] ∧
      r.elems 1 = [⟨2, 0⟩, ⟨2, 1⟩, ⟨2, 2⟩] ∧
      r.elems 2 = [⟨0, 2⟩, ⟨1, 2⟩] := by
  refine ⟨by decide, ?_⟩
  obtain ⟨r, hr, _, h⟩ := extents_raster_order grid3 (by decide)
  refine ⟨r, hr, ?_, ?_, ?_⟩
  · rw [(h 0 (by decide)).1]; decide
  · rw [(h 1 (by decide)).1]; decide
  · rw [(h 2 (by decide)).1]; decide

/-! ## Further claims on the centres -/

theorem length_raster (H W : Nat) : (raster H W).length = H * W := by
  have h := List.length_product (List.range H) (List.range W)
  rw [List.length_range, List.length_range] at h
  exact h

theorem length_labelled_le (g : SuperPixels) (l : Int) :
    (labelled g l (raster g.m_height g.m_width)).length ≤ g.m_width * g.m_height := by
  unfold labelled
  rw [List.length_map, Nat.mul_comm, ← length_raster]
  exact List.length_filter_le _ _

/-- Bounds on the coordinate sums of a list of points of a grid that holds at
most `W * H` points, when `W * H * max W H` fits an `int`. -/
theorem sums_bounded (W H : Nat) (hbound : W * H * max W H ≤ 2 ^ 31 - 1)
    (pts : List Point2i) (hlen : pts.length ≤ W * H)
    (hpts : ∀ p ∈ pts, (0 ≤ p.x ∧ p.x < W) ∧ (0 ≤ p.y ∧ p.y < H)) :
    (0 ≤ sumX pts ∧ sumX pts ≤ (pts.length : Int) * (((max W H : Nat) : Int) - 1)) ∧
      (0 ≤ sumY pts ∧ sumY pts ≤ (pts.length : Int) * (((max W H : Nat) : Int) - 1)) ∧
      (pts.length : Int) * (((max W H : Nat) : Int) - 1) ≤ 2 ^ 31 - 1 := by
  have hWm : W ≤ max W H := le_max_left W H
  have hHm : H ≤ max W H := le_max_right W H
  have hx : sumX pts ≤ (pts.length : Int) * (((max W H : Nat) : Int) - 1) := by
    have := sum_le_length_mul (pts.map Point2i.x) (((max W H : Nat) : Int) - 1) (by
      intro a ha
      obtain ⟨p, hp, rfl⟩ := List.mem_map.1 ha
      have := (hpts p hp).1.2
      omega)
    rw [List.length_map] at this
    exact this
  have hy : sumY pts ≤ (pts.length : Int) * (((max W H : Nat) : Int) - 1) := by
    have := sum_le_length_mul (pts.map Point2i.y) (((max W H : Nat) : Int) - 1) (by
      intro a ha
      obtain ⟨p, hp, rfl⟩ := List.mem_map.1 ha
      have := (hpts p hp).2.2
      omega)
    rw [List.length_map] at this
    exact this
  refine ⟨⟨sumX_nonneg _ (fun p hp => (hpts p hp).1.1), hx⟩,
    ⟨sumY_nonneg _ (fun p hp => (hpts p hp).2.1), hy⟩, ?_⟩
  rcases Nat.eq_zero_or_pos pts.length with h0 | hpos
  · rw [h0]; simp
  · have hM : 0 < max W H := by
      rcases Nat.eq_zero_or_pos (max W H) with hz | hp
      · have hW0 : W = 0 := by omega
        rw [hW0, Nat.zero_mul] at hlen
        omega
      · exact hp
    have h1 : pts.length * (max W H - 1) ≤ W * H * max W H :=
      Nat.mul_le_mul hlen (Nat.sub_le _ _)
    have h2 : ((pts.length * (max W H - 1) : Nat) : Int) ≤ 2147483647 := by
      have h3 : pts.length * (max W H - 1) ≤ 2 ^ 31 - 1 := le_trans h1 hbound
      have h4 : pts.length * (max W H - 1) ≤ 2147483647 := h3
      exact_mod_cast h4
    rw [Nat.cast_mul, Nat.cast_sub hM] at h2
    have e : (2 : Int) ^ 31 - 1 = 2147483647 := by norm_num
    rw [e]
    exact_mod_cast h2

/-- C15.  If `W * H * max(W, H) ≤ 2^31 - 1` and the labels lie in `[0, N)`, then
for every region id `i` below `N`: after every number `n` of iterations of the
loop over the pixels of the region the two 32-bit accumulators hold the exact
partial sums, which are non-negative and at most
`|extent| * (max(W, H) - 1) ≤ 2^31 - 1`; and when the extent is not empty the
unsigned division of each sum by the extent size returns the mathematical floor
of `sum / count`, a value in `[0, 2^31 - 1]`, which `init_superpixels` stores
as the centre. -/
theorem centroid_no_overflow (g : SuperPixels) (hlab : LabelsInRange g)
    (hbound : g.m_width * g.m_height * max g.m_width g.m_height ≤ 2 ^ 31 - 1) (i : Nat)
    (hi : i < g.m_numlabels) :
    ∃ r, sp_ranges_scan g = .ok r ∧
      (∀ d, init_superpixels g = .ok d → d.sp_ranges = r) ∧
      (∀ n,
        ((r.elems i).take n).foldl
            (fun (acc : Int × Int) p => (wrap32 (acc.1 + p.x), wrap32 (acc.2 + p.y))) (0, 0) =
          (sumX ((r.elems i).take n), sumY ((r.elems i).take n)) ∧
        (0 ≤ sumX ((r.elems i).take n) ∧ sumX ((r.elems i).take n) ≤
          ((r.elems i).length : Int) * (((max g.m_width g.m_height : Nat) : Int) - 1)) ∧
        (0 ≤ sumY ((r.elems i).take n) ∧ sumY ((r.elems i).take n) ≤
          ((r.elems i).length : Int) * (((max g.m_width g.m_height : Nat) : Int) - 1))) ∧
      ((r.elems i).length : Int) * (((max g.m_width g.m_height : Nat) : Int) - 1) ≤
        2 ^ 31 - 1 ∧
      (r.elems i ≠ [] →
        divSize (sumX (r.elems i)) (r.elems i).length =
            .ok (sumX (r.elems i) / ((r.elems i).length : Int)) ∧
          divSize (sumY (r.elems i)) (r.elems i).length =
            .ok (sumY (r.elems i) / ((r.elems i).length : Int)) ∧
          (0 ≤ sumX (r.elems i) / ((r.elems i).length : Int) ∧
            sumX (r.elems i) / ((r.elems i).length : Int) ≤ 2 ^ 31 - 1) ∧
          (0 ≤ sumY (r.elems i) / ((r.elems i).length : Int) ∧
            sumY (r.elems i) / ((r.elems i).length : Int) ≤ 2 ^ 31 - 1) ∧
          centroid (r.elems i) =
            .ok ⟨sumX (r.elems i) / ((r.elems i).length : Int),
              sumY (r.elems i) / ((r.elems i).length : Int)⟩ ∧
          ∀ d, init_superpixels g = .ok d →
            d.sp_centers.elems i =
              ⟨sumX (r.elems i) / ((r.elems i).length : Int),
                sumY (r.elems i) / ((r.elems i).length : Int)⟩) := by
  obtain ⟨r, hr, hsize, he⟩ := sp_ranges_scan_spec g hlab
  obtain ⟨_, _, _, hd, hb⟩ := extents_for_centres g hlab
  have hrr : ∀ d, init_superpixels g = .ok d → d.sp_ranges = r := by
    intro d hd'
    have := ((init_superpixels_ok g d).1 hd').1
    rw [hr] at this
    exact (Except.ok.inj this).symm
  have hpts : ∀ p ∈ r.elems i,
      (0 ≤ p.x ∧ p.x < g.m_width) ∧ (0 ≤ p.y ∧ p.y < g.m_height) := by
    intro p hp
    rw [he i] at hp
    exact labelled_raster_bounds g i p hp
  have hlen : (r.elems i).length ≤ g.m_width * g.m_height := by
    rw [he i]; exact length_labelled_le g i
  obtain ⟨⟨hx0, hx⟩, ⟨hy0, hy⟩, htop⟩ :=
    sums_bounded g.m_width g.m_height hbound (r.elems i) hlen hpts
  have htake : ∀ n,
      (0 ≤ sumX ((r.elems i).take n) ∧ sumX ((r.elems i).take n) ≤
        ((r.elems i).length : Int) * (((max g.m_width g.m_height : Nat) : Int) - 1)) ∧
      (0 ≤ sumY ((r.elems i).take n) ∧ sumY ((r.elems i).take n) ≤
        ((r.elems i).length : Int) * (((max g.m_width g.m_height : Nat) : Int) - 1)) := by
    intro n
    have hpt : ∀ p ∈ (r.elems i).take n,
        (0 ≤ p.x ∧ p.x < g.m_width) ∧ (0 ≤ p.y ∧ p.y < g.m_height) :=
      fun p hp => hpts p (List.mem_of_mem_take hp)
    have hd0 : ∀ p ∈ (r.elems i).drop n,
        (0 ≤ p.x ∧ p.x < g.m_width) ∧ (0 ≤ p.y ∧ p.y < g.m_height) :=
      fun p hp => hpts p (List.mem_of_mem_drop hp)
    have hsx : sumX (r.elems i) =
        sumX ((r.elems i).take n) + sumX ((r.elems i).drop n) := by
      rw [← sumX_append, List.take_append_drop]
    have hsy : sumY (r.elems i) =
        sumY ((r.elems i).take n) + sumY ((r.elems i).drop n) := by
      rw [← sumY_append, List.take_append_drop]
    have h1 := sumX_nonneg _ (fun p hp => (hpt p hp).1.1)
    have h2 := sumX_nonneg _ (fun p hp => (hd0 p hp).1.1)
    have h3 := sumY_nonneg _ (fun p hp => (hpt p hp).2.1)
    have h4 := sumY_nonneg _ (fun p hp => (hd0 p hp).2.1)
    exact ⟨⟨h1, by omega⟩, ⟨h3, by omega⟩⟩
  refine ⟨r, hr, hrr, fun n => ?_, htop, fun hne => ?_⟩
  · obtain ⟨⟨a1, a2⟩, ⟨b1, b2⟩⟩ := htake n
    refine ⟨?_, ⟨a1, a2⟩, ⟨b1, b2⟩⟩
    have h := centroid_acc ((r.elems i).take n) 0 0
    have h0 : wrap32 0 = 0 := by decide
    rw [h0, zero_add, zero_add] at h
    rw [h, wrap32_id _ (by omega) (by omega), wrap32_id _ (by omega) (by omega)]
  · have hn : (r.elems i).length ≠ 0 := fun h => hne (List.length_eq_zero.1 h)
    have hqx : sumX (r.elems i) / ((r.elems i).length : Int) ≤ sumX (r.elems i) :=
      Int.ediv_le_self _ hx0
    have hqy : sumY (r.elems i) / ((r.elems i).length : Int) ≤ sumY (r.elems i) :=
      Int.ediv_le_self _ hy0
    have hqx0 : 0 ≤ sumX (r.elems i) / ((r.elems i).length : Int) := by positivity
    have hqy0 : 0 ≤ sumY (r.elems i) / ((r.elems i).length : Int) := by positivity
    have hdx := divSize_fits (sumX (r.elems i)) _ hn hx0 (by omega)
    have hdy := divSize_fits (sumY (r.elems i)) _ hn hy0 (by omega)
    rw [wrap32_id _ (by omega) (by omega)] at hdx hdy
    have hc := centroid_fits (r.elems i) hne hx0 (by omega) hy0 (by omega)
    exact ⟨hdx, hdy, ⟨hqx0, by omega⟩, ⟨hqy0, by omega⟩, hc,
      fun d hd' => init_superpixels_centre g d hd' r hr hsize i hi _ hc⟩

/-! ## Further claims on the adjacency relation -/

/-- The two outcomes of one step of the adjacency scan on an `N x N` matrix and a
grid whose labels are in range: the matrix is returned as it is, or the step
reads a pair `(A, B)` of distinct labels whose entry is 0 and sets `(A, B)` and
`(B, A)` to 1. -/
theorem adjStep_cases (g : SuperPixels) (hlab : LabelsInRange g) (adj : SpUMat)
    (j k i : Nat) (hj : j < g.m_height) (hk : k < g.m_width)
    (hrows : adj.n_rows = g.m_numlabels) (hcols : adj.n_cols = g.m_numlabels) :
    (adjStep g adj (j, k, i) = .ok adj ∧
        ∀ a b : Nat, a ≠ b → stepPair g j k i a b → adj.data a b ≠ 0) ∨
      ∃ A B : Nat, A ≠ B ∧ stepPair g j k i A B ∧ adj.data A B = 0 ∧
        adjStep g adj (j, k, i) = .ok ⟨adj.n_rows, adj.n_cols,
          fun r c => if r = B ∧ c = A then 1 else if r = A ∧ c = B then 1
            else adj.data r c⟩ := by
  unfold adjStep adjNeighbour stepPair
  simp only
  generalize (k : Int) + dx8.getD i 0 = x
  generalize (j : Int) + dy8.getD i 0 = y
  by_cases hb : (x ≥ 0 ∧ x < g.m_width) ∧ (y ≥ 0 ∧ y < g.m_height)
  · obtain ⟨⟨hx0, hxW⟩, hy0, hyH⟩ := hb
    obtain ⟨x', rfl⟩ := Int.eq_ofNat_of_zero_le hx0
    obtain ⟨y', rfl⟩ := Int.eq_ofNat_of_zero_le hy0
    have hxW' : x' < g.m_width := by exact_mod_cast hxW
    have hyH' : y' < g.m_height := by exact_mod_cast hyH
    have hb : (((x' : Int) ≥ 0 ∧ (x' : Int) < g.m_width) ∧
        (y' : Int) ≥ 0 ∧ (y' : Int) < g.m_height) := ⟨⟨hx0, hxW⟩, hy0, hyH⟩
    have hidx : ((y' : Int) * (g.m_width : Int) + (x' : Int)) =
        ((y' * g.m_width + x' : Nat) : Int) := by
      push_cast; rfl
    have hget : (Vec.replicate (g.m_width * g.m_height) false).get
        ((y' * g.m_width + x' : Nat) : Int) = .ok false :=
      vec_get_nat _ _ (flat_lt_size _ _ _ _ hxW' hyH')
    obtain ⟨ha0, haN⟩ := hlab j hj k hk
    obtain ⟨hb0, hbN⟩ := hlab y' hyH' x' hxW'
    obtain ⟨A, hA⟩ := Int.eq_ofNat_of_zero_le ha0
    obtain ⟨B, hB⟩ := Int.eq_ofNat_of_zero_le hb0
    have hAN : A < g.m_numlabels := by omega
    have hBN : B < g.m_numlabels := by omega
    simp only [if_pos hb, hidx, hget, klabels_at_nat g j k hj hk,
      klabels_at_nat g y' x' hyH' hxW', Int.toNat_natCast, hb, true_and, hA, hB,
      Nat.cast_inj]
    have hgetAB := spmat_get_nat adj A B (by rw [hrows]; exact hAN) (by rw [hcols]; exact hBN)
    by_cases hAB : A = B
    · subst hAB
      left
      refine ⟨?_, fun a b hne h => ?_⟩
      · rw [if_pos trivial]
        show (if (A : Int) ≠ (A : Int) then _ else _) = _
        rw [if_neg (fun h => h rfl)]
        rfl
      · exact absurd (h.1.symm.trans h.2) hne
    · have hAB' : (A : Int) ≠ (B : Int) := by exact_mod_cast hAB
      by_cases he : adj.data A B = 0
      · right
        refine ⟨A, B, hAB, ⟨rfl, rfl⟩, he, ?_⟩
        rw [if_pos trivial]
        show (if (A : Int) ≠ (B : Int) then _ else _) = _
        rw [if_pos hAB', hgetAB]
        show (if adj.data A B = 0 then _ else _) = _
        rw [if_pos he, spmat_set_nat adj A B 1 (by rw [hrows]; exact hAN)
          (by rw [hcols]; exact hBN)]
        exact spmat_set_nat _ B A 1 (by show B < adj.n_rows; rw [hrows]; exact hBN)
          (by show A < adj.n_cols; rw [hcols]; exact hAN)
      · left
        refine ⟨?_, fun a b _ h => ?_⟩
        · rw [if_pos trivial]
          show (if (A : Int) ≠ (B : Int) then _ else _) = _
          rw [if_pos hAB', hgetAB]
          show (if adj.data A B = 0 then _ else _) = _
          rw [if_neg he]
          rfl
        · rw [← h.1, ← h.2]
          exact he
  · left
    refine ⟨?_, fun a b _ h => ?_⟩
    · rw [if_neg hb]
      rfl
    · exact absurd h.1 hb

/-- The pair a step reads is determined by the step. -/
theorem stepPair_unique (g : SuperPixels) (j k i A B A' B' : Nat)
    (h : stepPair g j k i A B) (h' : stepPair g j k i A' B') : A = A' ∧ B = B' := by
  unfold stepPair at h h'
  obtain ⟨_, h1, h2⟩ := h
  obtain ⟨_, h1', h2'⟩ := h'
  constructor
  · have : (A : Int) = A' := h1.symm.trans h1'
    exact_mod_cast this
  · have : (B : Int) = B' := h2.symm.trans h2'
    exact_mod_cast this

/-- The body of the pixel loop of `getLabelContourMask` from any state whose
`mainindex` is `j * W + k` and whose containers have the sizes of the grid: no
access is out of range, `mainindex` is incremented and the sizes are kept. -/
theorem contourPixel_safe (g : SuperPixels) (lw j k : Nat) (s : ContourState)
    (hj : j < g.m_height) (hk : k < g.m_width)
    (hmain : s.mainindex = ((j * g.m_width + k : Nat) : Int))
    (hsize : s.istaken.size = g.m_width * g.m_height)
    (hrows : s.mask.rows = g.m_height) (hcols : s.mask.cols = g.m_width) :
    ∃ s', contourPixel g lw j s k = .ok s' ∧
      s'.mainindex = ((j * g.m_width + k + 1 : Nat) : Int) ∧
      s'.istaken.size = g.m_width * g.m_height ∧
      s'.mask.rows = g.m_height ∧ s'.mask.cols = g.m_width := by
  have hnp := foldlM_count _ _ (contourNeighbour_eq g s.istaken j k hj hk hsize)
    (List.range 8) 0
  have hn : j * g.m_width + k < s.istaken.size := by
    rw [hsize]; exact flat_lt_size _ _ _ _ hk hj
  have hm := mat_set_nat s.mask j k 255 (by rw [hrows]; exact hj) (by rw [hcols]; exact hk)
  have hv := vec_set_nat s.istaken (j * g.m_width + k) true hn
  rw [← hmain] at hv
  have hnext : s.mainindex + 1 = ((j * g.m_width + k + 1 : Nat) : Int) := by
    rw [hmain]; push_cast; rfl
  unfold contourPixel
  rw [hnp]
  by_cases hgt : lw < 0 + (List.range 8).countP
      (diffAt g (fun y x => s.istaken.elems (y * g.m_width + x)) j k)
  · refine ⟨⟨⟨s.mask.rows, s.mask.cols,
        fun r c => if r = j ∧ c = k then 255 else s.mask.data r c⟩,
      ⟨s.istaken.size, Function.update s.istaken.elems (j * g.m_width + k) true⟩,
      s.mainindex + 1⟩, ?_, hnext, hsize, hrows, hcols⟩
    show (if _ > lw then _ else _) = _
    rw [if_pos hgt, hm]
    show (s.istaken.set s.mainindex true >>= _) = _
    rw [hv]
    rfl
  · refine ⟨⟨s.mask, s.istaken, s.mainindex + 1⟩, ?_, hnext, hsize, hrows, hcols⟩
    show (if _ > lw then _ else _) = _
    rw [if_neg hgt]
    rfl

/-- The 32-bit `mainindex` is the number of increments while that number fits
an `int`. -/
theorem mainindex32_eq (n : Nat) (hn : n ≤ 2 ^ 31 - 1) : mainindex32 n = (n : Int) := by
  induction n with
  | zero => rfl
  | succ n ih =>
    have h1 := ih (by omega)
    show wrap32 (mainindex32 n + 1) = _
    rw [h1, wrap32_id _ (by omega) (by omega)]
    push_cast
    rfl

/-- When the pixel count fits an `int`, the 32-bit `sz` and `index` are the
integers `W * H` and `y * W + x`, and the index of a pixel of the grid lies in
`[0, sz)`. -/
theorem index32_eq (g : SuperPixels) (hfit : g.m_width * g.m_height ≤ 2 ^ 31 - 1) :
    sz32 g = ((g.m_width * g.m_height : Nat) : Int) ∧
      ∀ y < g.m_height, ∀ x < g.m_width,
        index32 g y x = ((y * g.m_width + x : Nat) : Int) ∧
          0 ≤ index32 g y x ∧ index32 g y x < sz32 g := by
  have hsz : sz32 g = ((g.m_width * g.m_height : Nat) : Int) := by
    unfold sz32
    rw [← Nat.cast_mul, wrap32_id _ (by omega) (by omega)]
  refine ⟨hsz, fun y hy x hx => ?_⟩
  have hlt := flat_lt_size g.m_width g.m_height y x hx hy
  have hidx : index32 g y x = ((y * g.m_width + x : Nat) : Int) := by
    have h1 : wrap32 ((y : Int) * (g.m_width : Int)) = ((y * g.m_width : Nat) : Int) := by
      rw [← Nat.cast_mul]
      exact wrap32_id _ (by omega) (by omega)
    unfold index32
    rw [h1, ← Nat.cast_add]
    exact wrap32_id _ (by omega) (by omega)
  rw [hidx, hsz]
  exact ⟨hidx ▸ rfl, Int.natCast_nonneg _, by exact_mod_cast hlt⟩

/-- C14, as stated, fails.  The grid of 65537 rows of 65536 pixels with the
single label 0 has its labels in range, but its pixel count `2^32 + 2^16` does
not fit the 32-bit `int sz`, which becomes 65536, the size of `istaken`.  For
the first pixel `(0, 0)` and offset number 6 the neighbour `(x, y) = (0, 1)` is
inside the grid and its flat index `1 * 65536 + 0 = 65536` is not below `sz`:
the read `istaken[index]` is outside the vector. -/
theorem index_safety_counterexample :
    LabelsInRange bigGrid ∧ sz32 bigGrid = 65536 ∧
      ((0 : Int) + dx8.getD 6 0 = 0 ∧ (0 : Int) + dy8.getD 6 0 = 1 ∧
        0 < bigGrid.m_width ∧ 1 < bigGrid.m_height) ∧
      index32 bigGrid 1 0 = 65536 ∧ ¬(index32 bigGrid 1 0 < sz32 bigGrid) ∧
      faultOf ((Vec.replicate (toU64 (sz32 bigGrid)) false).get (index32 bigGrid 1 0)) =
        some Fault.vectorIndex := by
  refine ⟨?_, by decide, by decide, by decide, by decide, by decide⟩
  intro y _ x _
  show (0 : Int) ≤ 0 ∧ (0 : Int) < ((1 : Nat) : Int)
  decide

/-- C14, amended.  For every grid whose pixel count `W * H` fits the 32-bit `int`
of `sz`, `index` and `mainindex` (`W * H ≤ 2^31 - 1`) and whose labels all lie
in `[0, N)`, no access of either pass is out of range.  The 32-bit `sz` is
`W * H`, the 32-bit `index` of every pixel of the grid is `y * W + x` and lies
in `[0, sz)`, and the 32-bit `mainindex` is `j * W + k` when pixel `(j, k)` is
visited, inside `[0, sz)`.  `getLabelContourMask` returns; from any state with
`mainindex = j * W + k` the body of its pixel loop runs without an out-of-range
access and leaves `mainindex = j * W + k + 1`.  The scan that fills `sp_ranges`
returns a vector of `N` extents, every iteration `i < N` of the centre loop
reads `sp_ranges[i]` and writes `sp_centers[i]` inside the vectors, and the
adjacency scan returns; so `init_superpixels` returns or reaches the division
by the size of an empty extent, never an access outside a matrix or a
vector. -/
theorem index_safety (g : SuperPixels) (hlab : LabelsInRange g)
    (hfit : g.m_width * g.m_height ≤ 2 ^ 31 - 1) (thick_line : Bool) :
    (sz32 g = ((g.m_width * g.m_height : Nat) : Int) ∧
        (∀ y < g.m_height, ∀ x < g.m_width,
          index32 g y x = ((y * g.m_width + x : Nat) : Int) ∧
            0 ≤ index32 g y x ∧ index32 g y x < sz32 g) ∧
        ∀ j < g.m_height, ∀ k < g.m_width,
          mainindex32 (j * g.m_width + k) = ((j * g.m_width + k : Nat) : Int) ∧
            0 ≤ mainindex32 (j * g.m_width + k) ∧
            mainindex32 (j * g.m_width + k) < sz32 g ∧
            mainindex32 (j * g.m_width + k + 1) = ((j * g.m_width + k + 1 : Nat) : Int)) ∧
      (∃ m, getLabelContourMask g thick_line = .ok m) ∧
      (∀ j < g.m_height, ∀ k < g.m_width, ∀ s : ContourState,
        s.mainindex = ((j * g.m_width + k : Nat) : Int) →
        s.istaken.size = g.m_width * g.m_height →
        s.mask.rows = g.m_height → s.mask.cols = g.m_width →
        (0 ≤ s.mainindex ∧ s.mainindex < ((g.m_width * g.m_height : Nat) : Int)) ∧
        ∃ s', contourPixel g (line_width thick_line) j s k = .ok s' ∧
          s'.mainindex = ((j * g.m_width + k + 1 : Nat) : Int)) ∧
      (∃ r, sp_ranges_scan g = .ok r ∧ r.size = g.m_numlabels ∧
        (∀ i < g.m_numlabels, r.get i = .ok (r.elems i) ∧
          ∀ (c : Vec Point2i) (v : Point2i), c.size = g.m_numlabels →
            ∃ c', c.set i v = .ok c' ∧ c'.size = g.m_numlabels) ∧
        (sp_centers_loop g.m_numlabels r = .error .divisionByZero ∨
          ∃ c, sp_centers_loop g.m_numlabels r = .ok c)) ∧
      (∃ adj, sp_adj_scan g = .ok adj) ∧
      (faultOf (init_superpixels g) = none ∨
        faultOf (init_superpixels g) = some Fault.divisionByZero) := by
  obtain ⟨m, hm, _⟩ := getLabelContourMask_spec g thick_line
  obtain ⟨r, hr, hsize, _⟩ := sp_ranges_scan_spec g hlab
  obtain ⟨adj, hadj, _, _⟩ := sp_adj_scan_spec g hlab
  obtain ⟨hsz, hidx⟩ := index32_eq g hfit
  have hcent : sp_centers_loop g.m_numlabels r = .error .divisionByZero ∨
      ∃ c, sp_centers_loop g.m_numlabels r = .ok c := by
    by_cases hex : ∃ i < g.m_numlabels, r.elems i = []
    · exact Or.inl (centers_upto_fault _ r hsize _ (Nat.le_refl _) hex)
    · right
      obtain ⟨c, hc, _, _⟩ := centers_upto_ok g.m_numlabels r hsize g.m_numlabels
        (Nat.le_refl _) (fun i hi h => hex ⟨i, hi, h⟩)
      exact ⟨c, hc⟩
  refine ⟨⟨hsz, hidx, ?_⟩, ⟨m, hm⟩, ?_, ⟨r, hr, hsize, ?_, hcent⟩, ⟨adj, hadj⟩, ?_⟩
  · intro j hj k hk
    have hlt := flat_lt_size g.m_width g.m_height j k hk hj
    rw [mainindex32_eq _ (by omega), mainindex32_eq _ (by omega), hsz]
    exact ⟨rfl, Int.natCast_nonneg _, by exact_mod_cast hlt, rfl⟩
  · intro j hj k hk s hmain hsz' hrows hcols
    obtain ⟨s', hs', hnext, _⟩ :=
      contourPixel_safe g (line_width thick_line) j k s hj hk hmain hsz' hrows hcols
    refine ⟨?_, s', hs', hnext⟩
    rw [hmain]
    have := flat_lt_size _ _ _ _ hk hj
    constructor
    · exact Int.natCast_nonneg _
    · exact_mod_cast this
  · intro i hi
    refine ⟨vec_get_nat r i (by rw [hsize]; exact hi), fun c v hc => ?_⟩
    exact ⟨_, vec_set_nat c i v (by rw [hc]; exact hi), hc⟩
  · rcases hcent with hc | ⟨c, hc⟩
    · right
      unfold init_superpixels
      rw [hr]
      show faultOf (sp_centers_loop g.m_numlabels r >>= _) = _
      rw [hc]
      rfl
    · left
      have : init_superpixels g = .ok ⟨r, c, adj⟩ :=
        (init_superpixels_ok g _).2 ⟨hr, hc, hadj⟩
      rw [this]
      rfl

/-- The grid `[[0,0,1],[0,0,1],[2,2,1]]` has 9 pixels and its labels in range, so
`index_safety` applies to it; on it `init_superpixels` returns. -/
theorem index_safety_witness :
    (LabelsInRange grid3 ∧ grid3.m_width * grid3.m_height ≤ 2 ^ 31 - 1) ∧
    faultOf (init_superpixels grid3) = none ∧
    (∃ m, getLabelContourMask grid3 true = .ok m) ∧
    (∃ r, sp_ranges_scan grid3 = .ok r ∧ r.size = grid3.m_numlabels) ∧
    (∃ adj, sp_adj_scan grid3 = .ok adj) ∧
    sz32 grid3 = 9 ∧
    ∀ y < grid3.m_height, ∀ x < grid3.m_width,
      index32 grid3 y x = ((y * grid3.m_width + x : Nat) : Int) ∧
        0 ≤ index32 grid3 y x ∧ index32 grid3 y x < sz32 grid3 := by
  have h := index_safety grid3 (by decide) (by decide) true
  obtain ⟨⟨hsz, hidx, _⟩, hm, _, ⟨r, hr, hsize, _⟩, hadj, _⟩ := h
  exact ⟨by decide, by decide, hm, ⟨r, hr, hsize⟩, hadj, hsz, hidx⟩

/-- The grid `[[0,0,1],[0,0,1],[2,2,1]]` and its region 0 satisfy the hypotheses
of `centroid_no_overflow` (`3 * 3 * 3 ≤ 2^31 - 1`); the sums of region 0 are
`(2, 2)` and its centre is `(2 / 4, 2 / 4) = (0, 0)`. -/
theorem centroid_no_overflow_witness :
    (LabelsInRange grid3 ∧
      grid3.m_width * grid3.m_height * max grid3.m_width grid3.m_height ≤ 2 ^ 31 - 1 ∧
      0 < grid3.m_numlabels) ∧
    ∃ r, sp_ranges_scan grid3 = .ok r ∧ r.elems 0 = [⟨0, 0⟩, ⟨1, 0⟩, ⟨0, 1⟩, ⟨1, 1⟩] ∧
      sumX (r.elems 0) = 2 ∧ sumY (r.elems 0) = 2 ∧
      centroid (r.elems 0) = .ok ⟨0, 0⟩ := by
  refine ⟨by decide, ?_⟩
  obtain ⟨r, hr, _, _, _, h⟩ := centroid_no_overflow grid3 (by decide) (by decide) 0 (by decide)
  have he : extentOf (sp_ranges_scan grid3) 0 = some [⟨0, 0⟩, ⟨1, 0⟩, ⟨0, 1⟩, ⟨1, 1⟩] := by
    decide
  rw [hr] at he
  have he0 : r.elems 0 = [⟨0, 0⟩, ⟨1, 0⟩, ⟨0, 1⟩, ⟨1, 1⟩] := Option.some.inj he
  rw [he0] at h
  refine ⟨r, hr, he0, by rw [he0]; decide, by rw [he0]; decide, ?_⟩
  rw [he0]
  exact (h (by decide)).2.2.2.2.1

end SuperPixel
